import Mathlib

/-!
Verification of the Barron-AI board-game decision engines: an 8x8 Thai-checkers
(makhos) engine and a 3x3 tic-tac-toe engine.  The checkers definitions below
are a shallow embedding of the second (authoritative) component in
`src/app/gomoku/page.tsx`; the tic-tac-toe definitions embed
`src/unnamed/part_000`.  JavaScript number arithmetic on scores is embedded as
`Int` extended with the two infinities (`WithBot (WithTop Int)`), matching the
`-Infinity` / `Infinity` sentinels used by the searches.
-/

set_option autoImplicit false

namespace Makhos

/-- Checkers piece, mirroring the string literals `'BP' | 'WP' | 'BK' | 'WK'`. -/
inductive Piece where
  | BP | WP | BK | WK
deriving DecidableEq, Repr

/-- Test of `piece[0] === 'B'` in the source. -/
def Piece.isBlack : Piece → Bool
  | .BP => true
  | .BK => true
  | _ => false

/-- Test of `piece[1] === 'K'` in the source. -/
def Piece.isKing : Piece → Bool
  | .BK => true
  | .WK => true
  | _ => false

/-- Board of 64 cells, mirroring `type Board = Piece[]` (null = empty). -/
def Board := List (Option Piece)

/-- Read of `board[i]` for a nonnegative index (out of range reads `undefined`,
embedded as `none`). -/
def bget (b : Board) (i : Nat) : Option Piece := b.getD i none

/-- Read of `board[i]` at a possibly negative index. -/
def bgetI (b : Board) (i : Int) : Option Piece :=
  if 0 ≤ i then bget b i.toNat else none

/-- Write of `board[i] = v` at a possibly negative index; a negative index (the
`-1` sentinel of `getIndex`) leaves cells 0..63 unchanged, as in JS. -/
def bsetI (b : Board) (i : Int) (v : Option Piece) : Board :=
  if 0 ≤ i then b.set i.toNat v else b

/-- Source `getIndex`: clamps an (row, col) pair to a cell index, `-1` if off
board. -/
def getIndex (row col : Int) : Int :=
  if row < 0 ∨ 8 ≤ row ∨ col < 0 ∨ 8 ≤ col then -1 else row * 8 + col

/-- Source `isValidSquare`: dark squares satisfy `(row+col) % 2 === 1`.  It is
only ever applied to in-range (nonnegative) coordinates, where JS `%` and
`Int.emod` agree. -/
def isValidSquare (row col : Int) : Bool := (row + col) % 2 == 1

/-- Row of a cell index (`getPosition(i)[0]`). -/
def rowOf (i : Nat) : Nat := i / 8

/-- Column of a cell index (`getPosition(i)[1]`). -/
def colOf (i : Nat) : Nat := i % 8

/-- Movement directions of a piece: kings all four diagonals, black men toward
decreasing rows, white men toward increasing rows. -/
def directionsOf (piece : Piece) : List (Int × Int) :=
  if piece.isKing then [(-1, -1), (-1, 1), (1, -1), (1, 1)]
  else if piece.isBlack then [(-1, -1), (-1, 1)] else [(1, -1), (1, 1)]

/-- Source `getCaptureMoves`: jump destinations of the piece at `pieceIndex`.
A direction yields a capture when the landing square (two steps away) is on
board, dark and empty and the intermediate square holds an enemy piece. -/
def getCaptureMoves (b : Board) (pieceIndex : Nat) : List Nat :=
  match bget b pieceIndex with
  | none => []
  | some piece =>
    let row : Int := rowOf pieceIndex
    let col : Int := colOf pieceIndex
    (directionsOf piece).filterMap (fun d =>
      let jumpRow := row + d.1 * 2
      let jumpCol := col + d.2 * 2
      let jumpIndex := getIndex jumpRow jumpCol
      if jumpIndex ≠ -1 && isValidSquare jumpRow jumpCol then
        match bgetI b (getIndex (row + d.1) (col + d.2)) with
        | some midPiece =>
          if midPiece.isBlack ≠ piece.isBlack && bgetI b jumpIndex = none then
            some jumpIndex.toNat
          else none
        | none => none
      else none)

/-- Source `getValidMoves`: capture moves when `capturesOnly` is set or any
capture exists, otherwise the single-step diagonal moves onto empty dark
squares. -/
def getValidMoves (b : Board) (pieceIndex : Nat) (capturesOnly : Bool) : List Nat :=
  match bget b pieceIndex with
  | none => []
  | some piece =>
    let captures := getCaptureMoves b pieceIndex
    if capturesOnly || !captures.isEmpty then captures
    else
      let row : Int := rowOf pieceIndex
      let col : Int := colOf pieceIndex
      (directionsOf piece).filterMap (fun d =>
        let newRow := row + d.1
        let newCol := col + d.2
        let newIndex := getIndex newRow newCol
        if newIndex ≠ -1 && isValidSquare newRow newCol && bgetI b newIndex = none then
          some newIndex.toNat
        else none)

/-- Indices (ascending) of the pieces of one side; `isMax = true` is White, as
in the minimax role convention of the source. -/
def sidePieces (b : Board) (isMax : Bool) : List Nat :=
  (List.range 64).filter (fun i =>
    match bget b i with
    | some p => if isMax then !p.isBlack else p.isBlack
    | none => false)

/-- Pieces of the side that have at least one capture available
(`piecesWithCaptures` in the source). -/
def capturePieces (b : Board) (isMax : Bool) : List Nat :=
  (sidePieces b isMax).filter (fun i => !(getCaptureMoves b i).isEmpty)

/-- Selectable pieces under the forced-capture rule (`activePieces`). -/
def activePieces (b : Board) (isMax : Bool) : List Nat :=
  if !(capturePieces b isMax).isEmpty then capturePieces b isMax else sidePieces b isMax

/-- Flattened legal (from, to) moves of one side, exactly as enumerated by
`aiMove` and by the minimax loops: the forced-capture piece set when nonempty,
each piece contributing `getValidMoves` with the captures-only flag. -/
def legalMoves (b : Board) (isMax : Bool) : List (Nat × Nat) :=
  (activePieces b isMax).flatMap (fun i =>
    (getValidMoves b i (!(capturePieces b isMax).isEmpty)).map (fun t => (i, t)))

/-- Capture test of a transition: `Math.abs(toRow - fromRow) === 2`. -/
def wasCapture (f t : Nat) : Bool := ((t / 8 : Int) - (f / 8 : Int)).natAbs == 2

/-- Index of the jumped-over square, `getIndex((fromRow+toRow)/2, (fromCol+toCol)/2)`.
On every generated capture both coordinate sums are even, so the integer
divisions are exact as in JS. -/
def midIndex (f t : Nat) : Int :=
  getIndex (((f / 8 + t / 8 : Nat) / 2 : Nat)) (((f % 8 + t % 8 : Nat) / 2 : Nat))

/-- Common board update of every move-application site: move the piece from
`f` to `t` and, when the move is a jump, clear the jumped-over square. -/
def applyCore (b : Board) (f t : Nat) : Board :=
  let b1 := b.set t (bget b f)
  let b2 := b1.set f none
  if wasCapture f t then bsetI b2 (midIndex f t) none else b2

/-- Move application as performed by `makeMove`: both promotion checks
(`'BP'` reaching row 0, `'WP'` reaching row 7) run right after the board
update and before any chain-capture check. -/
def applyMoveBoth (b : Board) (f t : Nat) : Board :=
  let b2 := applyCore b f t
  match bget b2 t with
  | some .BP => if t / 8 = 0 then b2.set t (some .BK) else b2
  | some .WP => if t / 8 = 7 then b2.set t (some .WK) else b2
  | _ => b2

/-- Move application as performed by `aiMove` and the maximizing minimax
branch (White moves only, so only the `'WP'` promotion is checked). -/
def applyMoveWhite (b : Board) (f t : Nat) : Board :=
  let b2 := applyCore b f t
  match bget b2 t with
  | some .WP => if t / 8 = 7 then b2.set t (some .WK) else b2
  | _ => b2

/-- Move application of the minimizing minimax branch (Black moves only). -/
def applyMoveBlack (b : Board) (f t : Nat) : Board :=
  let b2 := applyCore b f t
  match bget b2 t with
  | some .BP => if t / 8 = 0 then b2.set t (some .BK) else b2
  | _ => b2

/-- Outcome of the player's `makeMove` relevant to turn sequencing: the updated
board, the new `mustCaptureFrom` state and whether the turn passes to the
other side.  The score/win bookkeeping of the UI is not modelled; the chain
branch (`wasCapture` and a further capture from the landing square) keeps the
turn and restricts selection to the landing square, all other branches clear
`mustCaptureFrom` and pass the turn. -/
def makeMove (b : Board) (f t : Nat) : Board × List Nat × Bool :=
  let nb := applyMoveBoth b f t
  if wasCapture f t && !(getCaptureMoves nb t).isEmpty then (nb, [t], false)
  else (nb, [], true)

/-! Basic board-access lemmas. -/

theorem bget_set (b : Board) (k j : Nat) (v : Option Piece) :
    bget (b.set k v) j = if j = k ∧ k < b.length then v else bget b j := by
  rcases Decidable.em (j = k) with h | h
  · subst h
    rcases Nat.lt_or_ge j b.length with hl | hl
    · simp [bget, List.getD_eq_getElem?_getD, List.getElem?_set, hl]
    · simp [bget, List.getD_eq_getElem?_getD, List.getElem?_set, Nat.not_lt.mpr hl,
        List.getElem?_eq_none (by simpa using hl), Nat.lt_irrefl]
  · have h' : k ≠ j := Ne.symm h
    simp [bget, List.getD_eq_getElem?_getD, List.getElem?_set, h, h']

theorem length_bsetI (b : Board) (i : Int) (v : Option Piece) :
    (bsetI b i v).length = b.length := by
  unfold bsetI; split <;> simp

theorem bget_bsetI_ne (b : Board) (i : Int) (j : Nat) (v : Option Piece)
    (h : i ≠ (j : Int)) : bget (bsetI b i v) j = bget b j := by
  unfold bsetI; split
  · rw [bget_set]
    have : ¬(j = i.toNat ∧ i.toNat < b.length) := by
      rintro ⟨rfl, -⟩; omega
    rw [if_neg this]
  · rfl

theorem getCaptureMoves_ne_nil_piece (b : Board) (i : Nat)
    (h : getCaptureMoves b i ≠ []) : bget b i ≠ none := by
  intro hn
  rw [getCaptureMoves, hn] at h
  exact h rfl

theorem getValidMoves_capturesOnly (b : Board) (i : Nat) :
    getValidMoves b i true = getCaptureMoves b i := by
  rw [getValidMoves, getCaptureMoves]
  cases hb : bget b i
  · rfl
  · simp [getCaptureMoves, hb]

theorem getIndex_ne_neg_one {r c : Int} (h : getIndex r c ≠ -1) :
    0 ≤ r ∧ r < 8 ∧ 0 ≤ c ∧ c < 8 ∧ getIndex r c = r * 8 + c := by
  rw [getIndex] at h ⊢
  split at h
  · exact absurd rfl h
  · rename_i hc
    push_neg at hc
    exact ⟨hc.1, hc.2.1, hc.2.2.1, hc.2.2.2, by rw [if_neg (by push_neg; exact hc)]⟩

theorem getIndex_of_bounds {r c : Int} (h1 : 0 ≤ r) (h2 : r < 8) (h3 : 0 ≤ c)
    (h4 : c < 8) : getIndex r c = r * 8 + c := by
  rw [getIndex, if_neg]; push_neg; exact ⟨h1, h2, h3, h4⟩

/-- Destination properties shared by every jump the generator emits: on board,
empty, and a dark square. -/
theorem mem_getCaptureMoves_dest (b : Board) (i t : Nat)
    (h : t ∈ getCaptureMoves b i) :
    t < 64 ∧ bget b t = none ∧ (t / 8 + t % 8) % 2 = 1 := by
  rw [getCaptureMoves] at h
  cases hb : bget b i <;> rw [hb] at h
  · simp at h
  · rename_i piece
    simp only [List.mem_filterMap] at h
    obtain ⟨d, -, heq⟩ := h
    split at heq
    · rename_i hcond
      simp only [Bool.and_eq_true, decide_eq_true_eq] at hcond
      obtain ⟨hne, hvalid⟩ := hcond
      obtain ⟨hr0, hr8, hc0, hc8, hidx⟩ := getIndex_ne_neg_one hne
      split at heq
      · rename_i midPiece hmid
        split at heq
        · rename_i hcap
          simp only [Bool.and_eq_true, decide_eq_true_eq] at hcap
          obtain ⟨-, hempty⟩ := hcap
          obtain rfl : t = (getIndex (↑(rowOf i) + d.1 * 2) (↑(colOf i) + d.2 * 2)).toNat :=
            (Option.some.inj heq).symm
          rw [hidx] at hempty ⊢
          refine ⟨by omega, ?_, ?_⟩
          · rw [bgetI, if_pos (by omega)] at hempty
            exact hempty
          · rw [isValidSquare] at hvalid
            have hmod : ((↑(rowOf i) + d.1 * 2) + (↑(colOf i) + d.2 * 2)) % 2 = 1 := by
              simpa using hvalid
            have hrow : (((↑(rowOf i) + d.1 * 2) * 8 + (↑(colOf i) + d.2 * 2)).toNat) / 8
                = ((↑(rowOf i) + d.1 * 2 : Int)).toNat := by omega
            have hcol : (((↑(rowOf i) + d.1 * 2) * 8 + (↑(colOf i) + d.2 * 2)).toNat) % 8
                = ((↑(colOf i) + d.2 * 2 : Int)).toNat := by omega
            rw [hrow, hcol]
            omega
        · exact absurd heq (by simp)
      · exact absurd heq (by simp)
    · exact absurd heq (by simp)

/-- Destination properties of every generated move, capture or step (claim C9,
first half). -/
theorem mem_getValidMoves_dest (b : Board) (i t : Nat) (co : Bool)
    (h : t ∈ getValidMoves b i co) :
    t < 64 ∧ bget b t = none ∧ (t / 8 + t % 8) % 2 = 1 := by
  rw [getValidMoves] at h
  cases hb : bget b i <;> rw [hb] at h
  · simp at h
  · rename_i piece
    dsimp only at h
    split at h
    · exact mem_getCaptureMoves_dest b i t h
    · simp only [List.mem_filterMap] at h
      obtain ⟨d, -, heq⟩ := h
      split at heq
      · rename_i hcond
        simp only [Bool.and_eq_true, decide_eq_true_eq] at hcond
        obtain ⟨⟨hne, hvalid⟩, hempty⟩ := hcond
        obtain ⟨hr0, hr8, hc0, hc8, hidx⟩ := getIndex_ne_neg_one hne
        obtain rfl : t = (getIndex (↑(rowOf i) + d.1) (↑(colOf i) + d.2)).toNat :=
          (Option.some.inj heq).symm
        rw [hidx] at hempty ⊢
        refine ⟨by omega, ?_, ?_⟩
        · rw [bgetI, if_pos (by omega)] at hempty
          exact hempty
        · rw [isValidSquare] at hvalid
          have hmod : ((↑(rowOf i) + d.1) + (↑(colOf i) + d.2)) % 2 = 1 := by
            simpa using hvalid
          omega
      · exact absurd heq (by simp)

/-! Support of a move application. -/

theorem bget_set_none_ne_none {b : Board} {k j : Nat}
    (h : bget (b.set k none) j ≠ none) : bget b j ≠ none := by
  rw [bget_set] at h
  split at h
  · exact absurd rfl h
  · exact h

theorem bget_set_support {b : Board} {k j : Nat} {v : Option Piece}
    (h : bget (b.set k v) j ≠ none) : j = k ∨ bget b j ≠ none := by
  rw [bget_set] at h
  split at h
  · rename_i hc
    exact Or.inl hc.1
  · exact Or.inr h

theorem bget_bsetI_none_ne_none {b : Board} {i : Int} {j : Nat}
    (h : bget (bsetI b i none) j ≠ none) : bget b j ≠ none := by
  rw [bsetI] at h
  split at h
  · exact bget_set_none_ne_none h
  · exact h

theorem length_applyCore (b : Board) (f t : Nat) :
    (applyCore b f t).length = b.length := by
  rw [applyCore]
  split <;> simp [length_bsetI]

/-- Cells holding a piece after a move application are the landing square or
cells that held a piece before. -/
theorem applyMoveBoth_support (b : Board) (f t j : Nat)
    (h : bget (applyMoveBoth b f t) j ≠ none) : j = t ∨ bget b j ≠ none := by
  have hcore : bget (applyCore b f t) j ≠ none → j = t ∨ bget b j ≠ none := by
    intro hc
    rw [applyCore] at hc
    have hstep : bget ((b.set t (bget b f)).set f none) j ≠ none →
        j = t ∨ bget b j ≠ none := by
      intro hs
      rcases bget_set_support (bget_set_none_ne_none hs) with rfl | hh
      · exact Or.inl rfl
      · exact Or.inr hh
    split at hc
    · exact hstep (bget_bsetI_none_ne_none hc)
    · exact hstep hc
  rw [applyMoveBoth] at h
  split at h
  all_goals first
    | exact hcore h
    | · split at h
        · rcases bget_set_support h with rfl | hh
          · exact Or.inl rfl
          · exact hcore hh
        · exact hcore h

/-- Dark-square invariant: every occupied cell lies on a dark square. -/
def darkOnly (b : Board) : Prop :=
  ∀ j, j < 64 → bget b j ≠ none → (j / 8 + j % 8) % 2 = 1

instance (b : Board) : Decidable (darkOnly b) := by
  unfold darkOnly
  infer_instance

/-- Claim C9: every generated destination is on board, empty and dark, and
applying a generated move preserves the dark-square invariant. -/
theorem moveGen_dark_invariant (b : Board) (f t : Nat) (co : Bool)
    (hmem : t ∈ getValidMoves b f co) (hd : darkOnly b) :
    t < 64 ∧ bget b t = none ∧ (t / 8 + t % 8) % 2 = 1 ∧
      darkOnly (applyMoveBoth b f t) := by
  obtain ⟨h1, h2, h3⟩ := mem_getValidMoves_dest b f t co hmem
  refine ⟨h1, h2, h3, ?_⟩
  intro j hj hne
  rcases applyMoveBoth_support b f t j hne with rfl | hb
  · exact h3
  · exact hd j hj hb

/-- Claim C1: when some piece of the side to move has a capture, every
enumerated legal move is a capture move of a piece that has captures; pieces
without a capture contribute no moves. -/
theorem forcedCapture_only_captures (b : Board) (isMax : Bool)
    (h : ∃ i ∈ sidePieces b isMax, getCaptureMoves b i ≠ []) :
    ∀ m ∈ legalMoves b isMax,
      getCaptureMoves b m.1 ≠ [] ∧ m.2 ∈ getCaptureMoves b m.1 := by
  obtain ⟨i, hi, hc⟩ := h
  have hmemc : i ∈ capturePieces b isMax := by
    rw [capturePieces, List.mem_filter]
    exact ⟨hi, by simpa using hc⟩
  have hcp : (capturePieces b isMax).isEmpty = false := by
    cases hq : capturePieces b isMax with
    | nil => rw [hq] at hmemc; cases hmemc
    | cons x xs => simp
  intro m hm
  rw [legalMoves, List.mem_flatMap] at hm
  obtain ⟨p, hp, hm2⟩ := hm
  rw [List.mem_map] at hm2
  obtain ⟨tt, htm, rfl⟩ := hm2
  rw [activePieces, hcp] at hp
  simp only [Bool.not_false, if_pos] at hp
  rw [hcp] at htm
  simp only [Bool.not_false] at htm
  rw [getValidMoves_capturesOnly] at htm
  have hpc := (List.mem_filter.mp hp).2
  refine ⟨?_, htm⟩
  simpa using hpc

/-- Claim C2 (amended, game-level part): when a capture lands on a square from
which the moved piece can capture again, `makeMove` keeps the turn and makes
the landing square the only selectable piece. -/
theorem multiJump_makeMove (b : Board) (f t : Nat)
    (hc : wasCapture f t = true)
    (hmore : getCaptureMoves (applyMoveBoth b f t) t ≠ []) :
    makeMove b f t = (applyMoveBoth b f t, [t], false) ∧
      bget (applyMoveBoth b f t) t ≠ none := by
  refine ⟨?_, getCaptureMoves_ne_nil_piece _ _ hmore⟩
  rw [makeMove]
  have : (getCaptureMoves (applyMoveBoth b f t) t).isEmpty = false := by
    cases hq : getCaptureMoves (applyMoveBoth b f t) t with
    | nil => exact absurd hq hmore
    | cons x xs => simp
  simp [hc, this]

/-! Promotion (claim C4). -/

theorem bget_applyCore_target (b : Board) (f t : Nat) (hft : f ≠ t)
    (htl : t < b.length)
    (hmid : wasCapture f t = true → midIndex f t ≠ (t : Int)) :
    bget (applyCore b f t) t = bget b f := by
  have h1 : bget ((b.set t (bget b f)).set f none) t = bget b f := by
    rw [bget_set, if_neg (by rintro ⟨rfl, -⟩; exact hft rfl), bget_set,
      if_pos ⟨rfl, htl⟩]
  rw [applyCore]
  by_cases hw : wasCapture f t = true
  · rw [if_pos hw, bget_bsetI_ne _ _ _ _ (hmid hw)]
    exact h1
  · rw [if_neg hw]
    exact h1

/-- Claim C4: a man reaching its promotion row is a king immediately upon
landing (in `makeMove`'s `applyMoveBoth` and in `aiMove`'s White-only
variant), and the multi-jump chain check of `makeMove` runs on the promoted
board. -/
theorem promotion_on_landing (b : Board) (f t : Nat) (black : Bool)
    (hlen : b.length = 64) (ht : t < 64)
    (hf : bget b f = some (cond black Piece.BP Piece.WP))
    (htr : t / 8 = cond black 0 7)
    (hfr : cond black 1 5 ≤ f / 8 ∧ f / 8 ≤ cond black 2 6) :
    bget (applyMoveBoth b f t) t = some (cond black Piece.BK Piece.WK) ∧
      (black = true → bget (applyMoveBlack b f t) t = some Piece.BK) ∧
      (black = false → bget (applyMoveWhite b f t) t = some Piece.WK) ∧
      makeMove b f t =
        (if wasCapture f t && !(getCaptureMoves (applyMoveBoth b f t) t).isEmpty
          then (applyMoveBoth b f t, [t], false)
          else (applyMoveBoth b f t, [], true)) := by
  have htl : t < b.length := by omega
  have htl' : t < (applyCore b f t).length := by rw [length_applyCore]; omega
  cases black
  · simp only [Bool.cond_false] at hf htr hfr ⊢
    have hft : f ≠ t := by
      intro hfe
      rw [hfe, htr] at hfr
      omega
    have hmid : wasCapture f t = true → midIndex f t ≠ (t : Int) := by
      intro hw
      rw [wasCapture, beq_iff_eq] at hw
      have h2 : f / 8 = 5 := by omega
      rw [midIndex]
      have h3 : (f / 8 + t / 8) / 2 = 6 := by omega
      rw [h3]
      rw [getIndex_of_bounds (by omega) (by omega) (by omega) (by omega)]
      omega
    have hco : bget (applyCore b f t) t = some Piece.WP := by
      rw [bget_applyCore_target b f t hft htl hmid, hf]
    refine ⟨?_, fun hcon => absurd hcon (by decide), ?_, rfl⟩
    · rw [applyMoveBoth, hco]
      simp only [if_pos htr]
      rw [bget_set, if_pos ⟨rfl, htl'⟩]
    · intro _
      rw [applyMoveWhite, hco]
      simp only [if_pos htr]
      rw [bget_set, if_pos ⟨rfl, htl'⟩]
  · simp only [Bool.cond_true] at hf htr hfr ⊢
    have hft : f ≠ t := by
      intro hfe
      rw [hfe, htr] at hfr
      omega
    have hmid : wasCapture f t = true → midIndex f t ≠ (t : Int) := by
      intro hw
      rw [wasCapture, beq_iff_eq] at hw
      have h2 : f / 8 = 2 := by omega
      rw [midIndex]
      have h3 : (f / 8 + t / 8) / 2 = 1 := by omega
      rw [h3]
      rw [getIndex_of_bounds (by omega) (by omega) (by omega) (by omega)]
      omega
    have hco : bget (applyCore b f t) t = some Piece.BP := by
      rw [bget_applyCore_target b f t hft htl hmid, hf]
    refine ⟨?_, ?_, fun hcon => absurd hcon (by decide), rfl⟩
    · rw [applyMoveBoth, hco]
      simp only [if_pos htr]
      rw [bget_set, if_pos ⟨rfl, htl'⟩]
    · intro _
      rw [applyMoveBlack, hco]
      simp only [if_pos htr]
      rw [bget_set, if_pos ⟨rfl, htl'⟩]

/-! Concrete boards used by witnesses and counterexamples. -/

/-- Source `initializeBoard`: black men on dark squares of rows 5..7, white
men on dark squares of rows 0..2. -/
def initializeBoard : Board :=
  (List.range 64).map (fun i =>
    if (rowOf i + colOf i) % 2 = 1 then
      (if 5 ≤ rowOf i then some Piece.BP
       else if rowOf i < 3 then some Piece.WP else none)
    else none)

/-- White king on (3,4), black men on (4,5) and (6,5): White's forced capture
28 → 46 lands with a further capture available. -/
def chainBoard : Board :=
  (List.range 64).map (fun i =>
    if i = 28 then some Piece.WK else if i = 37 then some Piece.BP
    else if i = 53 then some Piece.BP else none)

/-- Black man on (5,4), white men on (4,3) and (2,1): Black's capture 44 → 26
lands with a further capture available. -/
def blackChainBoard : Board :=
  (List.range 64).map (fun i =>
    if i = 44 then some Piece.BP else if i = 35 then some Piece.WP
    else if i = 17 then some Piece.WP else none)

/-- Single black man on (1,2), one step from the promotion row. -/
def promoBoard : Board :=
  (List.range 64).map (fun i => if i = 10 then some Piece.BP else none)

/-! Witnesses for the hypotheses of the theorems above. -/

theorem forcedCapture_only_captures_witness :
    (∃ i ∈ sidePieces chainBoard true, getCaptureMoves chainBoard i ≠ []) ∧
      ∀ m ∈ legalMoves chainBoard true,
        getCaptureMoves chainBoard m.1 ≠ [] ∧ m.2 ∈ getCaptureMoves chainBoard m.1 :=
  ⟨⟨28, by decide, by decide⟩,
    forcedCapture_only_captures chainBoard true ⟨28, by decide, by decide⟩⟩

theorem multiJump_makeMove_witness :
    wasCapture 44 26 = true ∧
      getCaptureMoves (applyMoveBoth blackChainBoard 44 26) 26 ≠ [] ∧
      makeMove blackChainBoard 44 26 = (applyMoveBoth blackChainBoard 44 26, [26], false) :=
  ⟨by decide, by decide,
    (multiJump_makeMove blackChainBoard 44 26 (by decide) (by decide)).1⟩

theorem promotion_on_landing_witness :
    bget promoBoard 10 = some Piece.BP ∧
      bget (applyMoveBoth promoBoard 10 1) 1 = some Piece.BK :=
  ⟨by decide,
    (promotion_on_landing promoBoard 10 1 true (by decide) (by decide) (by decide)
      (by decide) (by decide)).1⟩

theorem moveGen_dark_invariant_witness :
    24 ∈ getValidMoves initializeBoard 17 false ∧ darkOnly initializeBoard ∧
      darkOnly (applyMoveBoth initializeBoard 17 24) :=
  ⟨by decide, by decide,
    (moveGen_dark_invariant initializeBoard 17 24 false (by decide) (by decide)).2.2.2⟩

/-! Static evaluation (`evaluateBoard`, second variant, the one with kings at
500 and the 250/400 material terms). -/

/-- Four diagonal directions used by the threat/protection scans. -/
def dirs4 : List (Int × Int) := [(-1, -1), (-1, 1), (1, -1), (1, 1)]

/-- Direction `d` threatens the piece at `i`: an enemy piece sits one step
behind and the landing square one step ahead is on board, dark and empty. -/
def isThreatDir (b : Board) (i : Nat) (piece : Piece) (d : Int × Int) : Bool :=
  let row : Int := rowOf i
  let col : Int := colOf i
  let attackerIndex := getIndex (row - d.1) (col - d.2)
  attackerIndex ≠ -1 &&
    (match bgetI b attackerIndex with
     | some attacker =>
       attacker.isBlack ≠ piece.isBlack &&
         (let li := getIndex (row + d.1) (col + d.2)
          li ≠ -1 && isValidSquare (row + d.1) (col + d.2) && bgetI b li = none)
     | none => false)

/-- Number of directions threatening the piece at `i` (the source increments
`whiteThreatened`/`blackThreatened` once per threatening direction). -/
def threatDirCount (b : Board) (i : Nat) : Nat :=
  match bget b i with
  | none => 0
  | some piece => dirs4.countP (isThreatDir b i piece)

/-- Membership in the source's `threatenedPieces` set. -/
def threatened (b : Board) (i : Nat) : Bool :=
  match bget b i with
  | none => false
  | some piece => dirs4.any (isThreatDir b i piece)

def whiteThreatened (b : Board) : Nat :=
  ((List.range 64).map (fun i =>
    match bget b i with
    | some p => if !p.isBlack then threatDirCount b i else 0
    | none => 0)).sum

def blackThreatened (b : Board) : Nat :=
  ((List.range 64).map (fun i =>
    match bget b i with
    | some p => if p.isBlack then threatDirCount b i else 0
    | none => 0)).sum

def whiteCanCapture (b : Board) : Nat :=
  ((List.range 64).map (fun i =>
    match bget b i with
    | some p => if !p.isBlack then (getCaptureMoves b i).length else 0
    | none => 0)).sum

def blackCanCapture (b : Board) : Nat :=
  ((List.range 64).map (fun i =>
    match bget b i with
    | some p => if p.isBlack then (getCaptureMoves b i).length else 0
    | none => 0)).sum

/-- Moving the piece at `i` to `m` would expose it: some direction has an
enemy piece (not the mover itself) behind `m` and an empty dark landing square
beyond, evaluated on the unmoved board as in the source. -/
def isVulnDest (b : Board) (i : Nat) (piece : Piece) (m : Nat) : Bool :=
  let mr : Int := rowOf m
  let mc : Int := colOf m
  dirs4.any (fun d =>
    let ai := getIndex (mr - d.1) (mc - d.2)
    ai ≠ -1 && ai ≠ (i : Int) &&
      (match bgetI b ai with
       | some attacker =>
         attacker.isBlack ≠ piece.isBlack &&
           (let li := getIndex (mr + d.1) (mc + d.2)
            li ≠ -1 && isValidSquare (mr + d.1) (mc + d.2) && bgetI b li = none)
       | none => false))

/-- Number of moves of the piece at `i` whose destination would be exposed
(the source counts one per move, breaking at the first threatening
direction). -/
def vulnCount (b : Board) (i : Nat) (piece : Piece) : Nat :=
  (getValidMoves b i false).countP (isVulnDest b i piece)

def whiteVulnerable (b : Board) : Nat :=
  ((List.range 64).map (fun i =>
    match bget b i with
    | some p => if !p.isBlack then vulnCount b i p else 0
    | none => 0)).sum

def blackVulnerable (b : Board) : Nat :=
  ((List.range 64).map (fun i =>
    match bget b i with
    | some p => if p.isBlack then vulnCount b i p else 0
    | none => 0)).sum

/-- Center-control factor `14 - (|3.5-row| + |3.5-col|)`, doubled and halved to
stay in integers; exact because `|7-2r| + |7-2c|` is even. -/
def centerTerm (i : Nat) : Int :=
  (28 - (((7 - 2 * (rowOf i : Int)).natAbs + (7 - 2 * (colOf i : Int)).natAbs : Nat) : Int)) / 2

/-- A friendly piece sits on some diagonally adjacent cell. -/
def isProtected (b : Board) (i : Nat) (piece : Piece) : Bool :=
  dirs4.any (fun d =>
    let pidx := getIndex ((rowOf i : Int) + d.1) ((colOf i : Int) + d.2)
    pidx ≠ -1 &&
      (match bgetI b pidx with
       | some pr => pr.isBlack == piece.isBlack
       | none => false))

/-- Positional and tactical per-piece terms of the evaluator, everything of
the per-piece `value` except the 100/500 base. -/
def positionalValue (b : Board) (i : Nat) (piece : Piece) : Int :=
  let r := rowOf i
  let c := colOf i
  let isW := !piece.isBlack
  let isK := piece.isKing
  centerTerm i * (if isW then 12 else 8)
  + (if !isK && isW && 4 ≤ r then ((r : Int) - 3) * 50 else 0)
  + (if !isK && !isW && r ≤ 3 then (4 - (r : Int)) * 30 else 0)
  + (if c = 0 ∨ c = 7 then -25 else 0)
  + (if r = 0 ∨ r = 7 then -15 else 0)
  + (if !isK && isW && r ≤ 1 then 25 else 0)
  + (if !isK && !isW && 6 ≤ r then 15 else 0)
  + ((getValidMoves b i false).length : Int) * (if isW then 12 else 8)
  + (if threatened b i then (if isK then -200 else -80) else 0)
  + (if isProtected b i piece then (if isW then 20 else 10) else 0)
  + (if isK && isW then 50 else 0)

/-- Per-piece `value` of the evaluator's main loop: base value (king 500, man
100) plus center control, advancement, edge and back-row adjustments,
mobility, threat penalty, protection bonus and the white-king bonus. -/
def pieceValue (b : Board) (i : Nat) (piece : Piece) : Int :=
  let r := rowOf i
  let c := colOf i
  let isW := !piece.isBlack
  let isK := piece.isKing
  (if isK then (500 : Int) else 100)
  + centerTerm i * (if isW then 12 else 8)
  + (if !isK && isW && 4 ≤ r then ((r : Int) - 3) * 50 else 0)
  + (if !isK && !isW && r ≤ 3 then (4 - (r : Int)) * 30 else 0)
  + (if c = 0 ∨ c = 7 then -25 else 0)
  + (if r = 0 ∨ r = 7 then -15 else 0)
  + (if !isK && isW && r ≤ 1 then 25 else 0)
  + (if !isK && !isW && 6 ≤ r then 15 else 0)
  + ((getValidMoves b i false).length : Int) * (if isW then 12 else 8)
  + (if threatened b i then (if isK then -200 else -80) else 0)
  + (if isProtected b i piece then (if isW then 20 else 10) else 0)
  + (if isK && isW then 50 else 0)

def whitePiecesCount (b : Board) : Nat :=
  (List.range 64).countP (fun i =>
    match bget b i with
    | some p => !p.isBlack
    | none => false)

def blackPiecesCount (b : Board) : Nat :=
  (List.range 64).countP (fun i =>
    match bget b i with
    | some p => p.isBlack
    | none => false)

def whiteKingsCount (b : Board) : Nat :=
  (List.range 64).countP (fun i => bget b i = some Piece.WK)

def blackKingsCount (b : Board) : Nat :=
  (List.range 64).countP (fun i => bget b i = some Piece.BK)

/-- Signed sum of the per-piece values (positive for White). -/
def perPieceSum (b : Board) : Int :=
  ((List.range 64).map (fun i =>
    match bget b i with
    | some p => if !p.isBlack then pieceValue b i p else -pieceValue b i p
    | none => 0)).sum

/-- Global material term `(whitePieces - blackPieces) * 250` of the source
(total piece counts, kings included). -/
def materialDiff (b : Board) : Int :=
  ((whitePiecesCount b : Int) - (blackPiecesCount b : Int)) * 250

def kingDiff (b : Board) : Int :=
  ((whiteKingsCount b : Int) - (blackKingsCount b : Int)) * 400

def threatDiff (b : Board) : Int :=
  ((blackThreatened b : Int) - (whiteThreatened b : Int)) * 50

def captureDiff (b : Board) : Int :=
  ((whiteCanCapture b : Int) - (blackCanCapture b : Int)) * 100

def vulnerabilityDiff (b : Board) : Int :=
  ((blackVulnerable b : Int) - (whiteVulnerable b : Int)) * 40

/-- Endgame promotion push when at most 8 pieces remain. -/
def endgameBonus (b : Board) : Int :=
  if whitePiecesCount b + blackPiecesCount b ≤ 8 then
    ((List.range 64).map (fun i =>
      match bget b i with
      | some p =>
        if p.isKing then 0
        else if !p.isBlack && 4 ≤ rowOf i then ((rowOf i : Int) - 3) * 40
        else if p.isBlack && rowOf i ≤ 3 then -((4 - (rowOf i : Int)) * 20)
        else 0
      | none => 0)).sum
  else 0

/-- Source `evaluateBoard` (second variant): signed per-piece sum plus the
global material/king/threat/capture/vulnerability terms and the endgame push,
overridden by ±50000 when a side has no pieces (the black-empty override is
checked last, as in the source). -/
def evaluateBoard (b : Board) : Int :=
  let core := perPieceSum b + materialDiff b + kingDiff b + threatDiff b +
    captureDiff b + vulnerabilityDiff b + endgameBonus b
  if blackPiecesCount b = 0 then 50000
  else if whitePiecesCount b = 0 then -50000
  else core

/-! Claim C7: men-vs-total counts in the material term. -/

/-- Number of white men (`'WP'` cells), a definition independent of the
evaluator's loop counters. -/
def whiteManCount (b : Board) : Nat :=
  (List.range 64).countP (fun i => bget b i = some Piece.WP)

def blackManCount (b : Board) : Nat :=
  (List.range 64).countP (fun i => bget b i = some Piece.BP)

theorem countP_or_disjoint {α : Type} (p q r : α → Bool) (l : List α)
    (h : ∀ x ∈ l, p x = (q x || r x) ∧ ¬(q x = true ∧ r x = true)) :
    l.countP p = l.countP q + l.countP r := by
  induction l with
  | nil => simp
  | cons a l ih =>
    have ha := h a (List.mem_cons_self a l)
    have ih' := ih (fun x hx => h x (List.mem_cons_of_mem a hx))
    rw [List.countP_cons, List.countP_cons, List.countP_cons, ih']
    rcases hq : q a <;> rcases hr : r a <;>
      simp [hq, hr, ha.1] at * <;> omega

theorem whitePieces_eq_men_add_kings (b : Board) :
    whitePiecesCount b = whiteManCount b + whiteKingsCount b := by
  rw [whitePiecesCount, whiteManCount, whiteKingsCount]
  apply countP_or_disjoint
  intro i _
  cases hb : bget b i
  · simp [hb]
  · rename_i p
    cases p <;> simp [hb, Piece.isBlack]

theorem blackPieces_eq_men_add_kings (b : Board) :
    blackPiecesCount b = blackManCount b + blackKingsCount b := by
  rw [blackPiecesCount, blackManCount, blackKingsCount]
  apply countP_or_disjoint
  intro i _
  cases hb : bget b i
  · simp [hb]
  · rename_i p
    cases p <;> simp [hb, Piece.isBlack]

/-- Claim C7 (amended): per-piece base values are 100 for a man and 500 for a
king, and the global terms the evaluator adds are
`(totalPieces_white - totalPieces_black) * 250` (all pieces, kings included)
and `(kings_white - kings_black) * 400`. -/
theorem evaluator_material_terms (b : Board)
    (hW : whitePiecesCount b ≠ 0) (hB : blackPiecesCount b ≠ 0) :
    evaluateBoard b = perPieceSum b + materialDiff b + kingDiff b + threatDiff b +
        captureDiff b + vulnerabilityDiff b + endgameBonus b ∧
      materialDiff b = (((whiteManCount b + whiteKingsCount b : Nat) : Int)
          - ((blackManCount b + blackKingsCount b : Nat) : Int)) * 250 ∧
      kingDiff b = ((whiteKingsCount b : Int) - (blackKingsCount b : Int)) * 400 ∧
      (∀ i piece, bget b i = some piece →
        pieceValue b i piece =
          (if piece.isKing then (500 : Int) else 100) + positionalValue b i piece) := by
  refine ⟨?_, ?_, rfl, ?_⟩
  · rw [evaluateBoard, if_neg hB, if_neg hW]
  · rw [materialDiff, whitePieces_eq_men_add_kings, blackPieces_eq_men_add_kings]
  · intro i piece _
    rw [pieceValue, positionalValue]
    ring

/-- Board with one white king and one black man: the evaluator's global
material term is 0 + 400, while the claimed men-based formula gives
-250 + 400. -/
def kingBoard : Board :=
  (List.range 64).map (fun i =>
    if i = 28 then some Piece.WK else if i = 37 then some Piece.BP else none)

/-- Counterexample to claim C7 as stated: the 250-weighted global term uses
total piece counts, not men counts. -/
theorem evaluator_material_terms_cex :
    materialDiff kingBoard + kingDiff kingBoard ≠
      ((whiteManCount kingBoard : Int) - (blackManCount kingBoard : Int)) * 250 +
        ((whiteKingsCount kingBoard : Int) - (blackKingsCount kingBoard : Int)) * 400 := by
  decide

theorem evaluator_material_terms_witness :
    whitePiecesCount chainBoard ≠ 0 ∧
      materialDiff chainBoard =
        (((whiteManCount chainBoard + whiteKingsCount chainBoard : Nat) : Int)
          - ((blackManCount chainBoard + blackKingsCount chainBoard : Nat) : Int)) * 250 :=
  ⟨by decide,
    (evaluator_material_terms chainBoard (by decide) (by decide)).2.1⟩

/-! Alpha-beta search (`minimax`, second variant, with move ordering). -/

/-- Scores of the searches: JS numbers restricted to integers extended with
`-Infinity` (`⊥`) and `Infinity` (`⊤`). -/
abbrev EInt := WithBot (WithTop Int)

/-- Finite score. -/
def eint (x : Int) : EInt := ((x : WithTop Int) : EInt)

/-- King test of a cell, used by the piece move ordering. -/
def kingAt (b : Board) (i : Nat) : Bool :=
  match bget b i with
  | some p => p.isKing
  | none => false

/-- Piece ordering of the minimax loops: the source stable-sorts
`activePieces` with a comparator that puts king pieces first and ties
otherwise, which partitions the list with relative order preserved. -/
def orderedPieces (b : Board) (isMax : Bool) : List Nat :=
  (activePieces b isMax).filter (kingAt b) ++
    (activePieces b isMax).filter (fun i => !kingAt b i)

/-- Destination rows in preference order: White advances toward row 7, Black
toward row 0. -/
def rowBuckets (isMax : Bool) : List Nat :=
  if isMax then [7, 6, 5, 4, 3, 2, 1, 0] else [0, 1, 2, 3, 4, 5, 6, 7]

/-- Move ordering of the minimax loops: the source stable-sorts a piece's
moves putting captures first and, within a class, more advancing destination
rows first; a stable sort by the two-component key equals this bucket
partition. -/
def orderMoves (fromIdx : Nat) (isMax : Bool) (moves : List Nat) : List Nat :=
  (rowBuckets isMax).flatMap (fun r =>
    (moves.filter (fun m => wasCapture fromIdx m)).filter (fun m => m / 8 = r)) ++
  (rowBuckets isMax).flatMap (fun r =>
    (moves.filter (fun m => !wasCapture fromIdx m)).filter (fun m => m / 8 = r))

/-- Board produced inside the minimax loops for one candidate move: White
moves (maximizing) check only the `'WP'` promotion, Black moves only `'BP'`. -/
def childBoard (b : Board) (mv : Nat × Nat) (isMax : Bool) : Board :=
  if isMax then applyMoveWhite b mv.1 mv.2 else applyMoveBlack b mv.1 mv.2

/-- Flattened, ordered candidate list of a minimax node; the nested
piece/move loops of the source with their double `break` behave as one flat
loop over this list. -/
def minimaxMoves (b : Board) (isMax : Bool) : List (Nat × Nat) :=
  (orderedPieces b isMax).flatMap (fun i =>
    (orderMoves i isMax (getValidMoves b i (!(capturePieces b isMax).isEmpty))).map
      (fun t => (i, t)))

/-- Maximizing alpha-beta loop: running best `m`, running alpha `a`, cut as
soon as `beta ≤ alpha` after the update, exactly as in the source loop. -/
def abMax {ι γ : Type} [LinearOrder γ] (ev : ι → γ → γ) (β : γ) :
    List ι → γ → γ → γ
  | [], m, _ => m
  | mv :: rest, m, a =>
    let v := ev mv a
    let m' := max m v
    let a' := max a v
    if β ≤ a' then m' else abMax ev β rest m' a'

/-- Minimizing alpha-beta loop: running best `m`, running beta `bb`. -/
def abMin {ι γ : Type} [LinearOrder γ] (ev : ι → γ → γ) (α : γ) :
    List ι → γ → γ → γ
  | [], m, _ => m
  | mv :: rest, m, bb =>
    let v := ev mv bb
    let m' := min m v
    let b' := min bb v
    if b' ≤ α then m' else abMin ev α rest m' b'

/-- Source `minimax` (second variant): static evaluation at depth 0, ±100000
when the side to move has no pieces, otherwise the alpha-beta loop over the
ordered forced-capture-respecting move list, with the role flipped for every
child. -/
def minimaxCk : Nat → Board → EInt → EInt → Bool → EInt
  | 0, b, _, _, _ => eint (evaluateBoard b)
  | d + 1, b, α, β, isMax =>
    if (sidePieces b isMax).isEmpty then (if isMax then eint (-100000) else eint 100000)
    else if isMax then
      abMax (fun mv a => minimaxCk d (childBoard b mv true) a β false) β
        (minimaxMoves b true) ⊥ α
    else
      abMin (fun mv bb => minimaxCk d (childBoard b mv false) α bb true) α
        (minimaxMoves b false) ⊤ β

/-- Fold of the true child values, the unpruned maximizing loop. -/
def pureFoldMax {ι γ : Type} [LinearOrder γ] (g : ι → γ) (l : List ι) (m : γ) : γ :=
  l.foldl (fun m i => max m (g i)) m

/-- Fold of the true child values, the unpruned minimizing loop. -/
def pureFoldMin {ι γ : Type} [LinearOrder γ] (g : ι → γ) (l : List ι) (m : γ) : γ :=
  l.foldl (fun m i => min m (g i)) m

/-- Modelled from the spec: unpruned minimax over the identical game tree
(same ordered move list, same leaf scoring, no alpha-beta window), the
comparison point of the alpha-beta equivalence claim. -/
def minimaxCkFull : Nat → Board → Bool → EInt
  | 0, b, _ => eint (evaluateBoard b)
  | d + 1, b, isMax =>
    if (sidePieces b isMax).isEmpty then (if isMax then eint (-100000) else eint 100000)
    else if isMax then
      pureFoldMax (fun mv => minimaxCkFull d (childBoard b mv true) false)
        (minimaxMoves b true) ⊥
    else
      pureFoldMin (fun mv => minimaxCkFull d (childBoard b mv false) true)
        (minimaxMoves b false) ⊤

/-! Claim C2, counterexample part: inside the minimax search a chainable
capture does not keep the mover; the role flips and the opponent's pieces are
enumerated. -/

/-- Counterexample to claim C2 as stated for moves applied inside minimax:
White's forced capture 28 → 46 on `chainBoard` lands with another capture
available from 46, yet the recursive minimax call (role flipped to Black)
enumerates Black's piece 53, not the landed piece 46. -/
theorem multiJump_minimax_cex :
    wasCapture 28 46 = true ∧
      getCaptureMoves (childBoard chainBoard (28, 46) true) 46 ≠ [] ∧
      (∀ mv ∈ minimaxMoves (childBoard chainBoard (28, 46) true) false, mv.1 ≠ 46) ∧
      minimaxMoves (childBoard chainBoard (28, 46) true) false ≠ [] ∧
      orderedPieces (childBoard chainBoard (28, 46) true) false ≠ [46] := by
  decide

/-! Move selection of `aiMove` (claim C3, checkers part). -/

/-- Accumulator of `aiMove`'s best-move scan. -/
structure AiSt where
  bestMove : Option (Nat × Nat)
  bestScore : EInt
  wasCaptureBest : Bool
  wasBestPromotion : Bool

/-- Dynamic search depth of `aiMove`: base 8, 9 at ≤ 12 pieces, 10 at ≤ 8
pieces, plus one for captures. -/
def searchDepthFor (nb : Board) (isCap : Bool) : Nat :=
  let total := nb.countP (fun p => p.isSome)
  let base := if total ≤ 8 then 10 else if total ≤ 12 then 9 else 8
  if isCap then base + 1 else base

/-- One iteration of `aiMove`'s scan: apply the move, search with the dynamic
depth, add the capture bonus 1500, and keep the move on a strictly better
score or on an equal score when it is a capture (resp. promotion) and the
incumbent is not. -/
def aiStep (b : Board) (st : AiSt) (mv : Nat × Nat) : AiSt :=
  let isCap := wasCapture mv.1 mv.2
  let nb := applyMoveWhite b mv.1 mv.2
  let score := minimaxCk (searchDepthFor nb isCap) nb ⊥ ⊤ false
  let final := if isCap then score + eint 1500 else score
  let promo := bget nb mv.2 = some Piece.WK && bget b mv.1 = some Piece.WP
  if st.bestScore < final ∨ (final = st.bestScore ∧ isCap = true ∧ st.wasCaptureBest = false)
      ∨ (final = st.bestScore ∧ promo = true ∧ st.wasBestPromotion = false) then
    ⟨some mv, final, isCap, promo⟩
  else st

/-- Source `aiMove`'s move selection: fold of `aiStep` over the legal moves
(forced-capture set when nonempty), starting from no move and score
`-Infinity`. -/
def aiSelect (b : Board) : Option (Nat × Nat) :=
  ((legalMoves b true).foldl (aiStep b) ⟨none, ⊥, false, false⟩).bestMove

theorem aiSelect_foldl_mem (b : Board) (C : Nat × Nat → Prop) :
    ∀ (l : List (Nat × Nat)) (st : AiSt),
      (∀ mv, st.bestMove = some mv → C mv) → (∀ mv ∈ l, C mv) →
      ∀ mv, (l.foldl (aiStep b) st).bestMove = some mv → C mv := by
  intro l
  induction l with
  | nil => exact fun st h0 _ mv hm => h0 mv hm
  | cons x xs ih =>
    intro st h0 hl mv hm
    rw [List.foldl_cons] at hm
    refine ih (aiStep b st x) ?_ (fun m hmem => hl m (List.mem_cons_of_mem _ hmem)) mv hm
    intro m hbm
    rw [aiStep] at hbm
    split at hbm
    · split at hbm
      · obtain rfl : x = m := by simpa using hbm
        exact hl x (List.mem_cons_self x xs)
      · exact h0 m hbm
    · split at hbm
      · obtain rfl : x = m := by simpa using hbm
        exact hl x (List.mem_cons_self x xs)
      · exact h0 m hbm

/-- Checkers part of claim C3: whenever `aiMove`'s scan settles on a move, it
is one of the enumerated legal moves of the side to move. -/
theorem aiSelect_mem_legalMoves (b : Board) (mv : Nat × Nat)
    (h : aiSelect b = some mv) : mv ∈ legalMoves b true := by
  rw [aiSelect] at h
  exact aiSelect_foldl_mem b (fun m => m ∈ legalMoves b true) (legalMoves b true)
    ⟨none, ⊥, false, false⟩ (fun m hm => by cases hm) (fun m hm => hm) mv h

/-! Alpha-beta equivalence (claim C8): fail-soft zone analysis of the pruned
loops against the unpruned folds, in an arbitrary linear order. -/

section Zones

variable {ι γ : Type} [LinearOrder γ] {g : ι → γ} {ev : ι → γ → γ}

theorem pureFoldMax_nil (g : ι → γ) (m : γ) : pureFoldMax g [] m = m := rfl

theorem pureFoldMax_cons (g : ι → γ) (i : ι) (l : List ι) (m : γ) :
    pureFoldMax g (i :: l) m = pureFoldMax g l (max m (g i)) := rfl

theorem le_pureFoldMax_seed (g : ι → γ) : ∀ (l : List ι) (m : γ), m ≤ pureFoldMax g l m := by
  intro l
  induction l with
  | nil => exact fun m => le_refl m
  | cons i l ih =>
    intro m
    rw [pureFoldMax_cons]
    exact le_trans (le_max_left m (g i)) (ih _)

theorem elem_le_pureFoldMax (g : ι → γ) : ∀ (l : List ι) (m : γ) (i : ι), i ∈ l →
    g i ≤ pureFoldMax g l m := by
  intro l
  induction l with
  | nil => intro m i hi; cases hi
  | cons a l ih =>
    intro m i hi
    rw [pureFoldMax_cons]
    rcases List.mem_cons.mp hi with rfl | hi
    · exact le_trans (le_max_right m (g i)) (le_pureFoldMax_seed g l _)
    · exact ih _ i hi

theorem pureFoldMax_le_iff (g : ι → γ) : ∀ (l : List ι) (m a : γ),
    pureFoldMax g l m ≤ a ↔ m ≤ a ∧ ∀ i ∈ l, g i ≤ a := by
  intro l
  induction l with
  | nil => intro m a; simp [pureFoldMax_nil]
  | cons i l ih =>
    intro m a
    rw [pureFoldMax_cons, ih]
    simp [max_le_iff, List.forall_mem_cons, and_assoc]

theorem lt_pureFoldMax_iff (g : ι → γ) : ∀ (l : List ι) (m a : γ),
    a < pureFoldMax g l m ↔ a < m ∨ ∃ i ∈ l, a < g i := by
  intro l
  induction l with
  | nil => intro m a; simp [pureFoldMax_nil]
  | cons i l ih =>
    intro m a
    rw [pureFoldMax_cons, ih]
    simp [lt_max_iff, List.exists_mem_cons_iff, or_assoc]

theorem le_pureFoldMax_iff (g : ι → γ) : ∀ (l : List ι) (m a : γ),
    a ≤ pureFoldMax g l m ↔ a ≤ m ∨ ∃ i ∈ l, a ≤ g i := by
  intro l
  induction l with
  | nil => intro m a; simp [pureFoldMax_nil]
  | cons i l ih =>
    intro m a
    rw [pureFoldMax_cons, ih]
    simp [le_max_iff, List.exists_mem_cons_iff, or_assoc]

theorem pureFoldMax_eq_of_seeds_le (g : ι → γ) :
    ∀ (l : List ι) (a s1 s2 : γ), s1 ≤ a → s2 ≤ a → a < pureFoldMax g l s1 →
      pureFoldMax g l s1 = pureFoldMax g l s2 ∧ a < pureFoldMax g l s2 := by
  intro l
  induction l with
  | nil =>
    intro a s1 s2 h1 _ hgt
    rw [pureFoldMax_nil] at hgt
    exact absurd hgt (not_lt.mpr h1)
  | cons i l ih =>
    intro a s1 s2 h1 h2 hgt
    rw [pureFoldMax_cons] at hgt ⊢
    rw [pureFoldMax_cons (m := s2)]
    rcases le_or_lt (g i) a with hga | hga
    · exact ih a (max s1 (g i)) (max s2 (g i)) (max_le h1 hga) (max_le h2 hga) hgt
    · have e1 : max s1 (g i) = g i := max_eq_right (le_of_lt (lt_of_le_of_lt h1 hga))
      have e2 : max s2 (g i) = g i := max_eq_right (le_of_lt (lt_of_le_of_lt h2 hga))
      rw [e1] at hgt
      rw [e1, e2]
      exact ⟨rfl, hgt⟩

theorem abMax_nil (ev : ι → γ → γ) (β m a : γ) : abMax ev β [] m a = m := rfl

theorem abMax_cons (ev : ι → γ → γ) (β : γ) (i : ι) (l : List ι) (m a : γ) :
    abMax ev β (i :: l) m a =
      if β ≤ max a (ev i a) then max m (ev i a)
      else abMax ev β l (max m (ev i a)) (max a (ev i a)) := rfl

theorem le_abMax_seed (ev : ι → γ → γ) (β : γ) :
    ∀ (l : List ι) (m a : γ), m ≤ abMax ev β l m a := by
  intro l
  induction l with
  | nil => exact fun m a => le_refl m
  | cons i l ih =>
    intro m a
    rw [abMax_cons]
    split
    · exact le_max_left m _
    · exact le_trans (le_max_left m _) (ih _ _)

/-- Fail-soft zone lemma of the maximizing alpha-beta loop: relative to the
window `(a, β)`, the pruned fold fails low when the true fold does, fails
high when the true fold does, and is exact when the true fold lands strictly
inside the window. -/
theorem abMax_zones (g : ι → γ) (ev : ι → γ → γ) (β : γ) :
    ∀ (l : List ι) (m a : γ), m ≤ a → a < β →
      (∀ i ∈ l, ∀ a', a' < β →
        (g i ≤ a' → ev i a' ≤ a') ∧ (β ≤ g i → β ≤ ev i a') ∧
        (a' < g i → g i < β → ev i a' = g i)) →
      (pureFoldMax g l m ≤ a → abMax ev β l m a ≤ a) ∧
      (β ≤ pureFoldMax g l m → β ≤ abMax ev β l m a) ∧
      (a < pureFoldMax g l m → pureFoldMax g l m < β →
        abMax ev β l m a = pureFoldMax g l m) := by
  intro l
  induction l with
  | nil =>
    intro m a hma hab _
    rw [pureFoldMax_nil, abMax_nil]
    exact ⟨fun h => h, fun h => h, fun h1 _ => absurd h1 (not_lt.mpr hma)⟩
  | cons i rest ih =>
    intro m a hma hab hz
    have hzi := hz i (List.mem_cons_self i rest)
    have hzr : ∀ j ∈ rest, ∀ a', a' < β →
        (g j ≤ a' → ev j a' ≤ a') ∧ (β ≤ g j → β ≤ ev j a') ∧
        (a' < g j → g j < β → ev j a' = g j) :=
      fun j hj => hz j (List.mem_cons_of_mem i hj)
    rcases le_or_lt (g i) a with hga | hga
    · -- the child fails low: alpha unchanged, best may pick up noise ≤ a
      have hva : ev i a ≤ a := (hzi a hab).1 hga
      have hm' : max m (ev i a) ≤ a := max_le hma hva
      have ha' : max a (ev i a) = a := max_eq_left hva
      have hstep : abMax ev β (i :: rest) m a = abMax ev β rest (max m (ev i a)) a := by
        rw [abMax_cons, ha', if_neg (not_le.mpr hab)]
      obtain ⟨ih1, ih2, ih3⟩ := ih (max m (ev i a)) a hm' hab hzr
      rw [pureFoldMax_cons, hstep]
      refine ⟨?_, ?_, ?_⟩
      · intro h
        apply ih1
        rw [pureFoldMax_le_iff] at h ⊢
        exact ⟨hm', h.2⟩
      · intro h
        apply ih2
        rw [le_pureFoldMax_iff] at h ⊢
        rcases h with h | ⟨j, hj, hjg⟩
        · exact absurd (le_trans h (max_le hma hga)) (not_le.mpr hab)
        · exact Or.inr ⟨j, hj, hjg⟩
      · intro h1 h2
        obtain ⟨heq, hlt2⟩ := pureFoldMax_eq_of_seeds_le g rest a (max m (g i))
          (max m (ev i a)) (max_le hma hga) hm' h1
        rw [heq]
        exact ih3 hlt2 (heq ▸ h2)
    · rcases lt_or_le (g i) β with hgb | hgb
      · -- the child is exact: alpha rises to its value
        have hv : ev i a = g i := (hzi a hab).2.2 hga hgb
        have hmlt : m < g i := lt_of_le_of_lt hma hga
        have hm' : max m (ev i a) = g i := by rw [hv]; exact max_eq_right (le_of_lt hmlt)
        have ha' : max a (ev i a) = g i := by rw [hv]; exact max_eq_right (le_of_lt hga)
        have hstep : abMax ev β (i :: rest) m a = abMax ev β rest (g i) (g i) := by
          rw [abMax_cons, ha', hm', if_neg (not_le.mpr hgb)]
        have hseed : pureFoldMax g (i :: rest) m = pureFoldMax g rest (g i) := by
          rw [pureFoldMax_cons, max_eq_right (le_of_lt hmlt)]
        obtain ⟨ih1, ih2, ih3⟩ := ih (g i) (g i) (le_refl (g i)) hgb hzr
        rw [hseed, hstep]
        refine ⟨?_, ?_, ?_⟩
        · intro h
          exact absurd (lt_of_lt_of_le hga (le_trans (le_pureFoldMax_seed g rest (g i)) h))
            (lt_irrefl a)
        · exact ih2
        · intro h1 h2
          rcases lt_or_le (g i) (pureFoldMax g rest (g i)) with hc | hc
          · exact ih3 hc h2
          · have hpe : pureFoldMax g rest (g i) = g i :=
              le_antisymm hc (le_pureFoldMax_seed g rest (g i))
            rw [hpe]
            exact le_antisymm (ih1 (le_of_eq hpe)) (le_abMax_seed ev β rest (g i) (g i))
      · -- the child fails high: immediate cut
        have hv : β ≤ ev i a := (hzi a hab).2.1 hgb
        have hstep : abMax ev β (i :: rest) m a = max m (ev i a) := by
          rw [abMax_cons, if_pos (le_trans hv (le_max_right a (ev i a)))]
        have hgp : g i ≤ pureFoldMax g (i :: rest) m :=
          elem_le_pureFoldMax g (i :: rest) m i (List.mem_cons_self i rest)
        rw [hstep]
        refine ⟨?_, ?_, ?_⟩
        · intro h
          exact absurd (lt_of_lt_of_le hab (le_trans hgb (le_trans hgp h))) (lt_irrefl a)
        · intro _
          exact le_trans hv (le_max_right m (ev i a))
        · intro _ h2
          exact absurd (lt_of_le_of_lt (le_trans hgb hgp) h2) (lt_irrefl β)

theorem pureFoldMin_nil (g : ι → γ) (m : γ) : pureFoldMin g [] m = m := rfl

theorem pureFoldMin_cons (g : ι → γ) (i : ι) (l : List ι) (m : γ) :
    pureFoldMin g (i :: l) m = pureFoldMin g l (min m (g i)) := rfl

theorem pureFoldMin_le_seed (g : ι → γ) : ∀ (l : List ι) (m : γ), pureFoldMin g l m ≤ m := by
  intro l
  induction l with
  | nil => exact fun m => le_refl m
  | cons i l ih =>
    intro m
    rw [pureFoldMin_cons]
    exact le_trans (ih _) (min_le_left m (g i))

theorem pureFoldMin_le_elem (g : ι → γ) : ∀ (l : List ι) (m : γ) (i : ι), i ∈ l →
    pureFoldMin g l m ≤ g i := by
  intro l
  induction l with
  | nil => intro m i hi; cases hi
  | cons a l ih =>
    intro m i hi
    rw [pureFoldMin_cons]
    rcases List.mem_cons.mp hi with rfl | hi
    · exact le_trans (pureFoldMin_le_seed g l _) (min_le_right m (g i))
    · exact ih _ i hi

theorem le_pureFoldMin_iff (g : ι → γ) : ∀ (l : List ι) (m a : γ),
    a ≤ pureFoldMin g l m ↔ a ≤ m ∧ ∀ i ∈ l, a ≤ g i := by
  intro l
  induction l with
  | nil => intro m a; simp [pureFoldMin_nil]
  | cons i l ih =>
    intro m a
    rw [pureFoldMin_cons, ih]
    simp [le_min_iff, List.forall_mem_cons, and_assoc]

theorem pureFoldMin_lt_iff (g : ι → γ) : ∀ (l : List ι) (m a : γ),
    pureFoldMin g l m < a ↔ m < a ∨ ∃ i ∈ l, g i < a := by
  intro l
  induction l with
  | nil => intro m a; simp [pureFoldMin_nil]
  | cons i l ih =>
    intro m a
    rw [pureFoldMin_cons, ih]
    simp [min_lt_iff, List.exists_mem_cons_iff, or_assoc]

theorem pureFoldMin_le_iff (g : ι → γ) : ∀ (l : List ι) (m a : γ),
    pureFoldMin g l m ≤ a ↔ m ≤ a ∨ ∃ i ∈ l, g i ≤ a := by
  intro l
  induction l with
  | nil => intro m a; simp [pureFoldMin_nil]
  | cons i l ih =>
    intro m a
    rw [pureFoldMin_cons, ih]
    simp [min_le_iff, List.exists_mem_cons_iff, or_assoc]

theorem pureFoldMin_eq_of_le_seeds (g : ι → γ) :
    ∀ (l : List ι) (a s1 s2 : γ), a ≤ s1 → a ≤ s2 → pureFoldMin g l s1 < a →
      pureFoldMin g l s1 = pureFoldMin g l s2 ∧ pureFoldMin g l s2 < a := by
  intro l
  induction l with
  | nil =>
    intro a s1 s2 h1 _ hlt
    rw [pureFoldMin_nil] at hlt
    exact absurd hlt (not_lt.mpr h1)
  | cons i l ih =>
    intro a s1 s2 h1 h2 hlt
    rw [pureFoldMin_cons] at hlt ⊢
    rw [pureFoldMin_cons (m := s2)]
    rcases le_or_lt a (g i) with hga | hga
    · exact ih a (min s1 (g i)) (min s2 (g i)) (le_min h1 hga) (le_min h2 hga) hlt
    · have e1 : min s1 (g i) = g i := min_eq_right (le_of_lt (lt_of_lt_of_le hga h1))
      have e2 : min s2 (g i) = g i := min_eq_right (le_of_lt (lt_of_lt_of_le hga h2))
      rw [e1] at hlt
      rw [e1, e2]
      exact ⟨rfl, hlt⟩

theorem abMin_nil (ev : ι → γ → γ) (α m bb : γ) : abMin ev α [] m bb = m := rfl

theorem abMin_cons (ev : ι → γ → γ) (α : γ) (i : ι) (l : List ι) (m bb : γ) :
    abMin ev α (i :: l) m bb =
      if min bb (ev i bb) ≤ α then min m (ev i bb)
      else abMin ev α l (min m (ev i bb)) (min bb (ev i bb)) := rfl

theorem abMin_le_seed (ev : ι → γ → γ) (α : γ) :
    ∀ (l : List ι) (m bb : γ), abMin ev α l m bb ≤ m := by
  intro l
  induction l with
  | nil => exact fun m bb => le_refl m
  | cons i l ih =>
    intro m bb
    rw [abMin_cons]
    split
    · exact min_le_left m _
    · exact le_trans (ih _ _) (min_le_left m _)

/-- Fail-soft zone lemma of the minimizing alpha-beta loop, the dual of
`abMax_zones` for the window `(α, bb)`. -/
theorem abMin_zones (g : ι → γ) (ev : ι → γ → γ) (α : γ) :
    ∀ (l : List ι) (m bb : γ), bb ≤ m → α < bb →
      (∀ i ∈ l, ∀ b', α < b' →
        (b' ≤ g i → b' ≤ ev i b') ∧ (g i ≤ α → ev i b' ≤ α) ∧
        (α < g i → g i < b' → ev i b' = g i)) →
      (bb ≤ pureFoldMin g l m → bb ≤ abMin ev α l m bb) ∧
      (pureFoldMin g l m ≤ α → abMin ev α l m bb ≤ α) ∧
      (α < pureFoldMin g l m → pureFoldMin g l m < bb →
        abMin ev α l m bb = pureFoldMin g l m) := by
  intro l
  induction l with
  | nil =>
    intro m bb hbm hab _
    rw [pureFoldMin_nil, abMin_nil]
    exact ⟨fun h => h, fun h => h, fun _ h2 => absurd h2 (not_lt.mpr hbm)⟩
  | cons i rest ih =>
    intro m bb hbm hab hz
    have hzi := hz i (List.mem_cons_self i rest)
    have hzr : ∀ j ∈ rest, ∀ b', α < b' →
        (b' ≤ g j → b' ≤ ev j b') ∧ (g j ≤ α → ev j b' ≤ α) ∧
        (α < g j → g j < b' → ev j b' = g j) :=
      fun j hj => hz j (List.mem_cons_of_mem i hj)
    rcases le_or_lt bb (g i) with hga | hga
    · -- the child fails high for the minimizer: beta unchanged
      have hva : bb ≤ ev i bb := (hzi bb hab).1 hga
      have hm' : bb ≤ min m (ev i bb) := le_min hbm hva
      have hb' : min bb (ev i bb) = bb := min_eq_left hva
      have hstep : abMin ev α (i :: rest) m bb = abMin ev α rest (min m (ev i bb)) bb := by
        rw [abMin_cons, hb', if_neg (not_le.mpr hab)]
      obtain ⟨ih1, ih2, ih3⟩ := ih (min m (ev i bb)) bb hm' hab hzr
      rw [pureFoldMin_cons, hstep]
      refine ⟨?_, ?_, ?_⟩
      · intro h
        apply ih1
        rw [le_pureFoldMin_iff] at h ⊢
        exact ⟨hm', h.2⟩
      · intro h
        apply ih2
        rw [pureFoldMin_le_iff] at h ⊢
        rcases h with h | ⟨j, hj, hjg⟩
        · exact absurd (lt_of_lt_of_le hab (le_trans (le_min hbm hga) h)) (lt_irrefl α)
        · exact Or.inr ⟨j, hj, hjg⟩
      · intro h1 h2
        obtain ⟨heq, hlt2⟩ := pureFoldMin_eq_of_le_seeds g rest bb (min m (g i))
          (min m (ev i bb)) (le_min hbm hga) hm' h2
        rw [heq]
        exact ih3 (heq ▸ h1) hlt2
    · rcases lt_or_le α (g i) with hgb | hgb
      · -- the child is exact: beta falls to its value
        have hv : ev i bb = g i := (hzi bb hab).2.2 hgb hga
        have hmlt : g i < m := lt_of_lt_of_le hga hbm
        have hm' : min m (ev i bb) = g i := by rw [hv]; exact min_eq_right (le_of_lt hmlt)
        have hb' : min bb (ev i bb) = g i := by rw [hv]; exact min_eq_right (le_of_lt hga)
        have hstep : abMin ev α (i :: rest) m bb = abMin ev α rest (g i) (g i) := by
          rw [abMin_cons, hb', hm', if_neg (not_le.mpr hgb)]
        have hseed : pureFoldMin g (i :: rest) m = pureFoldMin g rest (g i) := by
          rw [pureFoldMin_cons, min_eq_right (le_of_lt hmlt)]
        obtain ⟨ih1, ih2, ih3⟩ := ih (g i) (g i) (le_refl (g i)) hgb hzr
        rw [hseed, hstep]
        refine ⟨?_, ?_, ?_⟩
        · intro h
          exact absurd (lt_of_le_of_lt (le_trans h (pureFoldMin_le_seed g rest (g i))) hga)
            (lt_irrefl bb)
        · exact ih2
        · intro h1 h2
          rcases lt_or_le (pureFoldMin g rest (g i)) (g i) with hc | hc
          · exact ih3 h1 hc
          · have hpe : pureFoldMin g rest (g i) = g i :=
              le_antisymm (pureFoldMin_le_seed g rest (g i)) hc
            rw [hpe]
            exact le_antisymm (abMin_le_seed ev α rest (g i) (g i)) (ih1 (le_of_eq hpe.symm))
      · -- the child fails low for the minimizer: immediate cut
        have hv : ev i bb ≤ α := (hzi bb hab).2.1 hgb
        have hstep : abMin ev α (i :: rest) m bb = min m (ev i bb) := by
          rw [abMin_cons, if_pos (le_trans (min_le_right bb (ev i bb)) hv)]
        have hgp : pureFoldMin g (i :: rest) m ≤ g i :=
          pureFoldMin_le_elem g (i :: rest) m i (List.mem_cons_self i rest)
        rw [hstep]
        refine ⟨?_, ?_, ?_⟩
        · intro h
          exact absurd (lt_of_lt_of_le hab (le_trans h (le_trans hgp hgb))) (lt_irrefl α)
        · intro _
          exact le_trans (min_le_right m (ev i bb)) hv
        · intro h1 _
          exact absurd (lt_of_lt_of_le h1 (le_trans hgp hgb)) (lt_irrefl α)

end Zones

/-- Zone property of the checkers minimax against the unpruned minimax, by
induction over the search depth. -/
theorem minimaxCk_zones : ∀ (d : Nat) (b : Board) (isMax : Bool) (α β : EInt),
    α < β →
    (minimaxCkFull d b isMax ≤ α → minimaxCk d b α β isMax ≤ α) ∧
    (β ≤ minimaxCkFull d b isMax → β ≤ minimaxCk d b α β isMax) ∧
    (α < minimaxCkFull d b isMax → minimaxCkFull d b isMax < β →
      minimaxCk d b α β isMax = minimaxCkFull d b isMax) := by
  intro d
  induction d with
  | zero =>
    intro b isMax α β _
    exact ⟨fun h => h, fun h => h, fun _ _ => rfl⟩
  | succ d ih =>
    intro b isMax α β hab
    by_cases hemp : (sidePieces b isMax).isEmpty = true
    · rw [show minimaxCk (d + 1) b α β isMax = (if isMax then eint (-100000) else eint 100000) by
          rw [minimaxCk, if_pos hemp],
        show minimaxCkFull (d + 1) b isMax = (if isMax then eint (-100000) else eint 100000) by
          rw [minimaxCkFull, if_pos hemp]]
      exact ⟨fun h => h, fun h => h, fun _ _ => rfl⟩
    · cases isMax
      · rw [show minimaxCk (d + 1) b α β false =
              abMin (fun mv bb => minimaxCk d (childBoard b mv false) α bb true) α
                (minimaxMoves b false) ⊤ β by
            rw [minimaxCk, if_neg hemp, if_neg (by decide)],
          show minimaxCkFull (d + 1) b false =
              pureFoldMin (fun mv => minimaxCkFull d (childBoard b mv false) true)
                (minimaxMoves b false) ⊤ by
            rw [minimaxCkFull, if_neg hemp, if_neg (by decide)]]
        have hz := abMin_zones (fun mv => minimaxCkFull d (childBoard b mv false) true)
          (fun mv bb => minimaxCk d (childBoard b mv false) α bb true) α
          (minimaxMoves b false) ⊤ β le_top hab ?_
        · exact ⟨hz.2.1, hz.1, fun h1 h2 => hz.2.2 h1 h2⟩
        · intro mv _ b' hb'
          obtain ⟨z1, z2, z3⟩ := ih (childBoard b mv false) true α b' hb'
          exact ⟨z2, z1, z3⟩
      · rw [show minimaxCk (d + 1) b α β true =
              abMax (fun mv a => minimaxCk d (childBoard b mv true) a β false) β
                (minimaxMoves b true) ⊥ α by
            rw [minimaxCk, if_neg hemp, if_pos rfl],
          show minimaxCkFull (d + 1) b true =
              pureFoldMax (fun mv => minimaxCkFull d (childBoard b mv true) false)
                (minimaxMoves b true) ⊥ by
            rw [minimaxCkFull, if_neg hemp, if_pos rfl]]
        have hz := abMax_zones (fun mv => minimaxCkFull d (childBoard b mv true) false)
          (fun mv a => minimaxCk d (childBoard b mv true) a β false) β
          (minimaxMoves b true) ⊥ α bot_le hab ?_
        · exact hz
        · intro mv _ a' ha'
          exact ih (childBoard b mv true) false a' β ha'

/-- Claim C8 (amended to checkers): at the root window `(-Infinity, Infinity)`
the alpha-beta minimax returns exactly the unpruned minimax value, for every
board, depth and role. -/
theorem minimax_alphabeta_eq (d : Nat) (b : Board) (isMax : Bool) :
    minimaxCk d b ⊥ ⊤ isMax = minimaxCkFull d b isMax := by
  have hbt : (⊥ : EInt) < ⊤ := by decide
  obtain ⟨h1, h2, h3⟩ := minimaxCk_zones d b isMax ⊥ ⊤ hbt
  rcases eq_or_ne (minimaxCkFull d b isMax) ⊥ with hF | hF
  · rw [hF]
    exact le_bot_iff.mp (h1 (le_of_eq hF))
  · rcases eq_or_ne (minimaxCkFull d b isMax) ⊤ with hT | hT
    · rw [hT]
      exact (top_le_iff.mp (h2 (le_of_eq hT.symm))).symm ▸ rfl
    · exact h3 (bot_lt_iff_ne_bot.mpr hF) (lt_top_iff_ne_top.mpr hT)

end Makhos

namespace TicTac

open Makhos (EInt eint)

/-- Tic-tac-toe mark, `'X'` the human, `'O'` the engine. -/
inductive TPlayer where
  | X | O
deriving DecidableEq, Repr

/-- Tic-tac-toe board of 9 cells (`null` = empty). -/
def TBoard := List (Option TPlayer)

/-- Read of `board[i]`. -/
def tbget (b : TBoard) (i : Nat) : Option TPlayer := b.getD i none

/-- Source `WINNING_COMBINATIONS`. -/
def wins : List (Nat × Nat × Nat) :=
  [(0, 1, 2), (3, 4, 5), (6, 7, 8), (0, 3, 6), (1, 4, 7), (2, 5, 8), (0, 4, 8), (2, 4, 6)]

def checkWinnerAux (b : TBoard) : List (Nat × Nat × Nat) → Option TPlayer
  | [] => none
  | t :: rest =>
    match tbget b t.1 with
    | some p =>
      if tbget b t.2.1 = some p ∧ tbget b t.2.2 = some p then some p
      else checkWinnerAux b rest
    | none => checkWinnerAux b rest

/-- Source `checkWinner`: first combination with three equal marks. -/
def checkWinner (b : TBoard) : Option TPlayer := checkWinnerAux b wins

/-- Source `isBoardFull`. -/
def isBoardFull (b : TBoard) : Bool := b.all (fun c => c.isSome)

def lineCells (b : TBoard) (t : Nat × Nat × Nat) : List (Option TPlayer) :=
  [tbget b t.1, tbget b t.2.1, tbget b t.2.2]

def oCount (b : TBoard) (t : Nat × Nat × Nat) : Nat :=
  (lineCells b t).countP (fun c => c = some TPlayer.O)

def xCount (b : TBoard) (t : Nat × Nat × Nat) : Nat :=
  (lineCells b t).countP (fun c => c = some TPlayer.X)

def eCount (b : TBoard) (t : Nat × Nat × Nat) : Nat :=
  (lineCells b t).countP (fun c => c = none)

/-- Line one `O` short of a win: two `O`s, one empty, no `X`. -/
def isWinLineO (b : TBoard) (t : Nat × Nat × Nat) : Bool :=
  oCount b t = 2 && eCount b t = 1 && xCount b t = 0

/-- Count of one-short `O` lines (`winningLines` of the source, computed the
same way in `getBestMove` step 3 and in the minimax fork bonus). -/
def winningLinesO (b : TBoard) : Nat := wins.countP (isWinLineO b)

/-- Terminal scores of the tic-tac-toe minimax: `10000 - depth` for an `O`
win, `depth - 10000` for an `X` win, `-100 - depth` for a full drawn board. -/
def ttTerminal (b : TBoard) (d : Nat) : Option Int :=
  match checkWinner b with
  | some TPlayer.O => some (10000 - (d : Int))
  | some TPlayer.X => some ((d : Int) - 10000)
  | none => if isBoardFull b then some (-100 - (d : Int)) else none

/-- Move ordering of the maximizing branch: the source stable-sorts the empty
cells by priority (center 5, corners 3, sides 1) descending, which is this
bucket partition. -/
def orderedEmpties (b : TBoard) : List Nat :=
  let e := (List.range 9).filter (fun i => tbget b i = none)
  e.filter (fun i => i = 4) ++ e.filter (fun i => i = 0 ∨ i = 2 ∨ i = 6 ∨ i = 8) ++
    e.filter (fun i => i = 1 ∨ i = 3 ∨ i = 5 ∨ i = 7)

/-- Maximizing loop of the tic-tac-toe minimax, threading the mutated board:
probe `O` at the cell, compute the fork bonus on the probed board, recurse,
add the bonus, restore the cell, then update best/alpha and cut. -/
def tgoMax (ev : TBoard → EInt → EInt × TBoard) (β : EInt) :
    List Nat → TBoard → EInt → EInt → EInt × TBoard
  | [], bb, m, _ => (m, bb)
  | i :: rest, bb, m, a =>
    let b1 := bb.set i (some TPlayer.O)
    let bonus : EInt := if 2 ≤ winningLinesO b1 then eint 5000 else eint 0
    let p := ev b1 a
    let v := p.1 + bonus
    let b3 := p.2.set i none
    let m' := max m v
    let a' := max a v
    if β ≤ a' then (m', b3) else tgoMax ev β rest b3 m' a'

/-- Minimizing loop of the tic-tac-toe minimax: scan cells 0..8, probe `X` on
the empty ones, recurse, restore, update best/beta and cut. -/
def tgoMin (ev : TBoard → EInt → EInt × TBoard) (α : EInt) :
    List Nat → TBoard → EInt → EInt → EInt × TBoard
  | [], bb, m, _ => (m, bb)
  | i :: rest, bb, m, bβ =>
    if tbget bb i = none then
      let b1 := bb.set i (some TPlayer.X)
      let p := ev b1 bβ
      let v := p.1
      let b3 := p.2.set i none
      let m' := min m v
      let b' := min bβ v
      if b' ≤ α then (m', b3) else tgoMin ev α rest b3 m' b'
    else tgoMin ev α rest bb m bβ

/-- Source `minimax` of the tic-tac-toe engine, threading the in-place
mutated board as explicit state (the pair's second component).  The source
recursion terminates because every ply fills a cell; the `fuel` argument
makes that measure explicit, and with `fuel` at least the number of empty
cells the `fuel = 0` default is never reached. -/
def minimaxT : Nat → TBoard → Nat → Bool → EInt → EInt → EInt × TBoard
  | 0, b, d, _, _, _ =>
    (match ttTerminal b d with
     | some s => eint s
     | none => eint 0, b)
  | fuel + 1, b, d, isMax, α, β =>
    match ttTerminal b d with
    | some s => (eint s, b)
    | none =>
      if isMax then
        tgoMax (fun bb a => minimaxT fuel bb (d + 1) false a β) β (orderedEmpties b) b ⊥ α
      else
        tgoMin (fun bb bβ => minimaxT fuel bb (d + 1) true α bβ) α (List.range 9) b ⊤ β

/-- Modelled from the spec: unpruned tic-tac-toe minimax over the identical
tree (same ordered moves, same fork bonus, same leaf scores, no window), the
comparison point of the alpha-beta equivalence claim. -/
def minimaxTFull : Nat → TBoard → Nat → Bool → EInt
  | 0, b, d, _ =>
    (match ttTerminal b d with
     | some s => eint s
     | none => eint 0)
  | fuel + 1, b, d, isMax =>
    match ttTerminal b d with
    | some s => eint s
    | none =>
      if isMax then
        (orderedEmpties b).foldl (fun m i =>
          let b1 := b.set i (some TPlayer.O)
          let bonus : EInt := if 2 ≤ winningLinesO b1 then eint 5000 else eint 0
          max m (minimaxTFull fuel b1 (d + 1) false + bonus)) ⊥
      else
        ((List.range 9).filter (fun i => tbget b i = none)).foldl
          (fun m i => min m (minimaxTFull fuel (b.set i (some TPlayer.X)) (d + 1) true)) ⊤

/-- Position (engine `O` to move) on which the pruned and unpruned tic-tac-toe
searches disagree: cells 3,4,6 hold `O`, cells 5,7,8 hold `X`. -/
def cexBoard : TBoard :=
  [none, none, none, some TPlayer.O, some TPlayer.O, some TPlayer.X,
   some TPlayer.O, some TPlayer.X, some TPlayer.X]

/-- Counterexample to claim C8 as stated: with the fork bonus added after the
child search (run with the unshifted window), alpha-beta cuts make the
pruned tic-tac-toe minimax return 14997 where the unpruned minimax over the
identical tree returns 9999. -/
theorem ttt_alphabeta_cex :
    (minimaxT 3 cexBoard 0 true ⊥ ⊤).1 = eint 14997 ∧
      minimaxTFull 3 cexBoard 0 true = eint 9999 ∧
      (minimaxT 3 cexBoard 0 true ⊥ ⊤).1 ≠ minimaxTFull 3 cexBoard 0 true := by
  refine ⟨by decide, by decide, by decide⟩

/-! Terminal scoring of the tic-tac-toe minimax (claim C6). -/

theorem eint_lt_eint {x y : Int} : eint x < eint y ↔ x < y := by
  simp [eint]

/-- Claim C6: the tic-tac-toe minimax returns `10000 - depth` on an `O` win,
`depth - 10000` on an `X` win, `-100 - depth` on a full board without a
winner; a win at a smaller depth scores strictly higher than a later win, a
draw scores strictly below any win and strictly above any loss at the depths
the 9-ply game can reach. -/
theorem minimaxT_terminal_scores (fuel : Nat) (b : TBoard) (d : Nat)
    (isMax : Bool) (α β : EInt) (d2 : Nat) (hdlt : d < d2) (hd9 : d2 ≤ 9) :
    (checkWinner b = some TPlayer.O →
      (minimaxT fuel b d isMax α β).1 = eint (10000 - (d : Int))) ∧
    (checkWinner b = some TPlayer.X →
      (minimaxT fuel b d isMax α β).1 = eint ((d : Int) - 10000)) ∧
    (checkWinner b = none → isBoardFull b = true →
      (minimaxT fuel b d isMax α β).1 = eint (-100 - (d : Int))) ∧
    eint (10000 - (d2 : Int)) < eint (10000 - (d : Int)) ∧
    eint (-100 - (d : Int)) < eint (10000 - (d2 : Int)) ∧
    eint ((d2 : Int) - 10000) < eint (-100 - (d : Int)) := by
  refine ⟨?_, ?_, ?_, ?_, ?_, ?_⟩
  · intro h
    cases fuel <;> simp [minimaxT, ttTerminal, h]
  · intro h
    cases fuel <;> simp [minimaxT, ttTerminal, h]
  · intro h hf
    cases fuel <;> simp [minimaxT, ttTerminal, h, hf]
  · rw [eint_lt_eint]; omega
  · rw [eint_lt_eint]; omega
  · rw [eint_lt_eint]; omega

def winBoard : TBoard :=
  [some TPlayer.O, some TPlayer.O, some TPlayer.O, some TPlayer.X, some TPlayer.X,
   none, none, none, none]

theorem minimaxT_terminal_scores_witness :
    (0 : Nat) < 3 ∧ (3 : Nat) ≤ 9 ∧ checkWinner winBoard = some TPlayer.O ∧
      (minimaxT 9 winBoard 0 true ⊥ ⊤).1 = eint (10000 - ((0 : Nat) : Int)) :=
  ⟨by decide, by decide, by decide,
    (minimaxT_terminal_scores 9 winBoard 0 true ⊥ ⊤ 3 (by decide) (by decide)).1
      (by decide)⟩

/-! Decision cascade `getBestMove`, embedded with the in-place mutated board
threaded as explicit state; every probe (`board[i] = mark` … `board[i] =
null`) appears as a set/set pair in the board component. -/

/-- Step 1 scan: probe `O` on each empty cell (ascending) and return the
first immediate win, restoring the probe before returning. -/
def step1Go : List Nat → TBoard → Option Nat × TBoard
  | [], bb => (none, bb)
  | i :: rest, bb =>
    if tbget bb i = none then
      let b1 := bb.set i (some TPlayer.O)
      if checkWinner b1 = some TPlayer.O then (some i, b1.set i none)
      else step1Go rest (b1.set i none)
    else step1Go rest bb

def step1 (bb : TBoard) : Option Nat × TBoard := step1Go (List.range 9) bb

/-- Step 2 scan: collect every empty cell where `X` would win
(`blockingMoves`). -/
def step2Go : List Nat → TBoard → List Nat × TBoard
  | [], bb => ([], bb)
  | i :: rest, bb =>
    if tbget bb i = none then
      let b1 := bb.set i (some TPlayer.X)
      let hit := checkWinner b1 = some TPlayer.X
      let p := step2Go rest (b1.set i none)
      (if hit then i :: p.1 else p.1, p.2)
    else step2Go rest bb

/-- Step 2: with one or more blocking moves the source returns
`blockingMoves[0]` in both branches. -/
def step2 (bb : TBoard) : Option Nat × TBoard :=
  let p := step2Go (List.range 9) bb
  (p.1.head?, p.2)

/-- Fork quality of step 3: per one-short `O` line, 2 when the line touches a
corner, else 1. -/
def hasCornerLine (t : Nat × Nat × Nat) : Bool :=
  [t.1, t.2.1, t.2.2].any (fun v => v = 0 ∨ v = 2 ∨ v = 6 ∨ v = 8)

def forkQuality (b : TBoard) : Nat :=
  (wins.map (fun t =>
    if isWinLineO b t then (if hasCornerLine t then 2 else 1) else 0)).sum

def forkScore (b : TBoard) : Nat := winningLinesO b * 1000 + forkQuality b * 500

/-- Step 3 scan: probe `O` on each empty cell; keep the cell with the
strictly best `forkScore` among those creating at least two one-short
lines. -/
def step3Go : List Nat → TBoard → Option Nat → Nat → Option Nat × TBoard
  | [], bb, bm, _ => (bm, bb)
  | i :: rest, bb, bm, bs =>
    if tbget bb i = none then
      let b1 := bb.set i (some TPlayer.O)
      let wl := winningLinesO b1
      let fs := forkScore b1
      let upd := 2 ≤ wl ∧ bs < fs
      step3Go rest (b1.set i none) (if upd then some i else bm) (if upd then fs else bs)
    else step3Go rest bb bm bs

def step3 (bb : TBoard) : Option Nat × TBoard := step3Go (List.range 9) bb none 0

/-- Step 4 special case: when the player holds exactly two corners and they
are opposite, take the first free side if any. -/
def playerCorners (bb : TBoard) : List Nat :=
  [0, 2, 6, 8].filter (fun i => tbget bb i = some TPlayer.X)

def oppositeCornerCase (bb : TBoard) : Option Nat :=
  match playerCorners bb with
  | [c1, c2] =>
    if (c1 = 0 ∧ c2 = 8) ∨ (c1 = 8 ∧ c2 = 0) ∨ (c1 = 2 ∧ c2 = 6) ∨ (c1 = 6 ∧ c2 = 2) then
      ([1, 3, 5, 7].filter (fun p => tbget bb p = none)).head?
    else none
  | _ => none

/-- Innermost step 4 scan: count the empty cells where `X` would win
(probing `X` on each). -/
def countThreatsGo : List Nat → TBoard → Nat × TBoard
  | [], bb => (0, bb)
  | i :: rest, bb =>
    if tbget bb i = none then
      let b1 := bb.set i (some TPlayer.X)
      let hit := checkWinner b1 = some TPlayer.X
      let p := countThreatsGo rest (b1.set i none)
      (if hit then p.1 + 1 else p.1, p.2)
    else countThreatsGo rest bb

/-- Middle step 4 scan: the maximum threat count over all player replies
(probing `X` on each empty cell). -/
def maxThreatsGo : List Nat → TBoard → Nat → Nat × TBoard
  | [], bb, acc => (acc, bb)
  | i :: rest, bb, acc =>
    if tbget bb i = none then
      let b1 := bb.set i (some TPlayer.X)
      let p := countThreatsGo (List.range 9) b1
      maxThreatsGo rest (p.2.set i none) (max acc p.1)
    else maxThreatsGo rest bb acc

/-- Outer step 4 scan: classify each candidate engine move as safe (player
cannot reach two threats) or dangerous. -/
def step4Go : List Nat → TBoard → (List Nat × List Nat) × TBoard
  | [], bb => (([], []), bb)
  | i :: rest, bb =>
    if tbget bb i = none then
      let b1 := bb.set i (some TPlayer.O)
      let p := maxThreatsGo (List.range 9) b1 0
      let q := step4Go rest (p.2.set i none)
      (if 2 ≤ p.1 then (q.1.1, i :: q.1.2) else (i :: q.1.1, q.1.2), q.2)
    else step4Go rest bb

/-- JS `safeMoves.find(corner) || safeMoves.find(pos => pos === 4) ||
safeMoves[0]`: a found corner 0 is falsy and falls through. -/
def preferredSafe (safe : List Nat) : Nat :=
  let fb :=
    match safe.find? (fun p => p = 4) with
    | some w => w
    | none => safe.headD 0
  match safe.find? (fun p => p = 0 ∨ p = 2 ∨ p = 6 ∨ p = 8) with
  | some v => if v ≠ 0 then v else fb
  | none => fb

def step4 (bb : TBoard) : Option Nat × TBoard :=
  match oppositeCornerCase bb with
  | some s => (some s, bb)
  | none =>
    let q := step4Go (List.range 9) bb
    (if ¬q.1.2.isEmpty ∧ ¬q.1.1.isEmpty then some (preferredSafe q.1.1) else none, q.2)

/-- Step 5: take the center when empty; the source probes `O` on cell 4 to
compute a logged advantage number and restores it before returning. -/
def step5 (bb : TBoard) : Option Nat × TBoard :=
  if tbget bb 4 = none then (some 4, (bb.set 4 (some TPlayer.O)).set 4 none)
  else (none, bb)

/-- Cells adjacent to a corner, the source's `adjacentPositions` table. -/
def adjacentOf (c : Nat) : List Nat :=
  if c = 0 then [1, 3] else if c = 2 then [1, 5] else if c = 6 then [3, 7] else [5, 7]

/-- Step 6 corner value: 10 plus 2 per empty adjacent cell. -/
def cornerValue (bb : TBoard) (c : Nat) : Nat :=
  10 + 2 * (adjacentOf c).countP (fun a => tbget bb a = none)

/-- One direction check of step 6: when the player holds `c1` and the
opposite corner `c2` is free, keep `c2` on a strictly better value. -/
def upd6 (bb : TBoard) (st : Option Nat × Nat) (c1 c2 : Nat) : Option Nat × Nat :=
  if tbget bb c1 = some TPlayer.X ∧ tbget bb c2 = none then
    (let v := cornerValue bb c2; if st.2 < v then (some c2, v) else st)
  else st

/-- Step 6: opposite corner to a player-held corner, best strict value over
the two ordered pairs with both directions checked in source order. -/
def step6 (bb : TBoard) : Option Nat × TBoard :=
  let st1 := upd6 bb (upd6 bb (none, 0) 0 8) 8 0
  let st2 := upd6 bb (upd6 bb st1 2 6) 6 2
  (st2.1, bb)

/-- Step 7 corner score: 5, +3 per fully open line through the corner, +5 per
line with one `O` and no `X`, +1 per empty adjacent cell. -/
def cornerScore (bb : TBoard) (c : Nat) : Nat :=
  5 + ((wins.filter (fun t => t.1 = c ∨ t.2.1 = c ∨ t.2.2 = c)).map (fun t =>
        (if oCount bb t = 0 ∧ xCount bb t = 0 then 3 else 0) +
          (if oCount bb t = 1 ∧ xCount bb t = 0 then 5 else 0))).sum +
    (adjacentOf c).countP (fun a => tbget bb a = none)

/-- Shared accumulator update of steps 7 and 8: keep an empty cell on a
strictly better score. -/
def pick (bb : TBoard) (score : TBoard → Nat → Nat) (st : Option Nat × Nat)
    (c : Nat) : Option Nat × Nat :=
  if tbget bb c = none then
    (let s := score bb c; if st.2 < s then (some c, s) else st)
  else st

def step7 (bb : TBoard) : Option Nat × TBoard :=
  (([0, 2, 6, 8].foldl (pick bb cornerScore) (none, 0)).1, bb)

/-- Step 8 side score: 1, +2 per line through the side with one `O` and no
`X`, +1 per fully open line. -/
def sideScore (bb : TBoard) (c : Nat) : Nat :=
  1 + ((wins.filter (fun t => t.1 = c ∨ t.2.1 = c ∨ t.2.2 = c)).map (fun t =>
        (if oCount bb t = 1 ∧ xCount bb t = 0 then 2 else 0) +
          (if oCount bb t = 0 ∧ xCount bb t = 0 then 1 else 0))).sum

def step8 (bb : TBoard) : Option Nat × TBoard :=
  (([1, 3, 5, 7].foldl (pick bb sideScore) (none, 0)).1, bb)

/-- Sequencing of the cascade: the first step that fires returns immediately. -/
def seqStep (r : Option Nat × TBoard) (next : TBoard → Option Nat × TBoard) :
    Option Nat × TBoard :=
  match r with
  | (some i, bb) => (some i, bb)
  | (none, bb) => next bb

/-- Source `getBestMove`, with the mutated board threaded as state: the
eight-tier cascade, falling back to cell 0 when no tier fires. -/
def getBestMoveSt (b : TBoard) : Nat × TBoard :=
  let r := seqStep (seqStep (seqStep (seqStep (seqStep (seqStep (seqStep
    (step1 b) step2) step3) step4) step5) step6) step7) step8
  (r.1.getD 0, r.2)

/-- Chosen cell of `getBestMove`. -/
def getBestMove (b : TBoard) : Nat := (getBestMoveSt b).1

/-! Probe cancellation: every `board[i] = mark; …; board[i] = null` pair on an
empty cell restores the board. -/

theorem tbget_set (b : TBoard) (k j : Nat) (v : Option TPlayer) :
    tbget (b.set k v) j = if j = k ∧ k < b.length then v else tbget b j := by
  rcases Decidable.em (j = k) with h | h
  · subst h
    rcases Nat.lt_or_ge j b.length with hl | hl
    · simp [tbget, List.getD_eq_getElem?_getD, List.getElem?_set, hl]
    · simp [tbget, List.getD_eq_getElem?_getD, List.getElem?_set, Nat.not_lt.mpr hl,
        List.getElem?_eq_none (by simpa using hl), Nat.lt_irrefl]
  · have h' : k ≠ j := Ne.symm h
    simp [tbget, List.getD_eq_getElem?_getD, List.getElem?_set, h, h']

theorem tbset_cancel : ∀ (b : TBoard) (i : Nat), i < b.length → tbget b i = none →
    ∀ v : Option TPlayer, (b.set i v).set i none = b := by
  intro b
  induction b with
  | nil => intro i h; simp at h
  | cons c bs ih =>
    intro i hi he v
    cases i with
    | zero =>
      have : c = none := by simpa [tbget, List.getD] using he
      simp [List.set, this]
    | succ i =>
      have : tbget bs i = none := by simpa [tbget, List.getD] using he
      simp only [List.set]
      rw [ih i (by simpa using hi) this v]

/-! Board restoration of every cascade step (claim C5). -/

theorem step1Go_board : ∀ (l : List Nat) (bb : TBoard), (∀ j ∈ l, j < 9) →
    bb.length = 9 → (step1Go l bb).2 = bb := by
  intro l
  induction l with
  | nil => intro bb _ _; rfl
  | cons i rest ih =>
    intro bb hl hlen
    simp only [step1Go]
    have hi9 : i < 9 := hl i (List.mem_cons_self i rest)
    split
    · rename_i he
      have hc : (bb.set i (some TPlayer.O)).set i none = bb :=
        tbset_cancel bb i (by omega) he _
      split
      · exact hc
      · rw [hc]
        exact ih bb (fun j hj => hl j (List.mem_cons_of_mem i hj)) hlen
    · exact ih bb (fun j hj => hl j (List.mem_cons_of_mem i hj)) hlen

theorem step2Go_board : ∀ (l : List Nat) (bb : TBoard), (∀ j ∈ l, j < 9) →
    bb.length = 9 → (step2Go l bb).2 = bb := by
  intro l
  induction l with
  | nil => intro bb _ _; rfl
  | cons i rest ih =>
    intro bb hl hlen
    simp only [step2Go]
    have hi9 : i < 9 := hl i (List.mem_cons_self i rest)
    split
    · rename_i he
      have hc : (bb.set i (some TPlayer.X)).set i none = bb :=
        tbset_cancel bb i (by omega) he _
      simp only [hc]
      exact ih bb (fun j hj => hl j (List.mem_cons_of_mem i hj)) hlen
    · exact ih bb (fun j hj => hl j (List.mem_cons_of_mem i hj)) hlen

theorem step3Go_board : ∀ (l : List Nat) (bb : TBoard) (bm : Option Nat) (bs : Nat),
    (∀ j ∈ l, j < 9) → bb.length = 9 → (step3Go l bb bm bs).2 = bb := by
  intro l
  induction l with
  | nil => intro bb bm bs _ _; rfl
  | cons i rest ih =>
    intro bb bm bs hl hlen
    simp only [step3Go]
    have hi9 : i < 9 := hl i (List.mem_cons_self i rest)
    split
    · rename_i he
      have hc : (bb.set i (some TPlayer.O)).set i none = bb :=
        tbset_cancel bb i (by omega) he _
      simp only [hc]
      exact ih bb _ _ (fun j hj => hl j (List.mem_cons_of_mem i hj)) hlen
    · exact ih bb _ _ (fun j hj => hl j (List.mem_cons_of_mem i hj)) hlen

theorem countThreatsGo_board : ∀ (l : List Nat) (bb : TBoard), (∀ j ∈ l, j < 9) →
    bb.length = 9 → (countThreatsGo l bb).2 = bb := by
  intro l
  induction l with
  | nil => intro bb _ _; rfl
  | cons i rest ih =>
    intro bb hl hlen
    simp only [countThreatsGo]
    have hi9 : i < 9 := hl i (List.mem_cons_self i rest)
    split
    · rename_i he
      have hc : (bb.set i (some TPlayer.X)).set i none = bb :=
        tbset_cancel bb i (by omega) he _
      simp only [hc]
      exact ih bb (fun j hj => hl j (List.mem_cons_of_mem i hj)) hlen
    · exact ih bb (fun j hj => hl j (List.mem_cons_of_mem i hj)) hlen

theorem maxThreatsGo_board : ∀ (l : List Nat) (bb : TBoard) (acc : Nat),
    (∀ j ∈ l, j < 9) → bb.length = 9 → (maxThreatsGo l bb acc).2 = bb := by
  intro l
  induction l with
  | nil => intro bb acc _ _; rfl
  | cons i rest ih =>
    intro bb acc hl hlen
    simp only [maxThreatsGo]
    have hi9 : i < 9 := hl i (List.mem_cons_self i rest)
    split
    · rename_i he
      have hinner : (countThreatsGo (List.range 9) (bb.set i (some TPlayer.X))).2 =
          bb.set i (some TPlayer.X) :=
        countThreatsGo_board (List.range 9) _ (fun _ hj => List.mem_range.mp hj)
          (by simpa using hlen)
      rw [hinner, tbset_cancel bb i (by omega) he _]
      exact ih bb _ (fun j hj => hl j (List.mem_cons_of_mem i hj)) hlen
    · exact ih bb _ (fun j hj => hl j (List.mem_cons_of_mem i hj)) hlen

theorem step4Go_board : ∀ (l : List Nat) (bb : TBoard), (∀ j ∈ l, j < 9) →
    bb.length = 9 → (step4Go l bb).2 = bb := by
  intro l
  induction l with
  | nil => intro bb _ _; rfl
  | cons i rest ih =>
    intro bb hl hlen
    simp only [step4Go]
    have hi9 : i < 9 := hl i (List.mem_cons_self i rest)
    split
    · rename_i he
      have hinner : (maxThreatsGo (List.range 9) (bb.set i (some TPlayer.O)) 0).2 =
          bb.set i (some TPlayer.O) :=
        maxThreatsGo_board (List.range 9) _ 0 (fun _ hj => List.mem_range.mp hj)
          (by simpa using hlen)
      rw [hinner, tbset_cancel bb i (by omega) he _]
      exact ih bb (fun j hj => hl j (List.mem_cons_of_mem i hj)) hlen
    · exact ih bb (fun j hj => hl j (List.mem_cons_of_mem i hj)) hlen

theorem step1_board (bb : TBoard) (hlen : bb.length = 9) : (step1 bb).2 = bb :=
  step1Go_board (List.range 9) bb (fun _ hj => List.mem_range.mp hj) hlen

theorem step2_board (bb : TBoard) (hlen : bb.length = 9) : (step2 bb).2 = bb := by
  rw [step2]
  exact step2Go_board (List.range 9) bb (fun _ hj => List.mem_range.mp hj) hlen

theorem step3_board (bb : TBoard) (hlen : bb.length = 9) : (step3 bb).2 = bb :=
  step3Go_board (List.range 9) bb none 0 (fun _ hj => List.mem_range.mp hj) hlen

theorem step4_board (bb : TBoard) (hlen : bb.length = 9) : (step4 bb).2 = bb := by
  rw [step4]
  cases h : oppositeCornerCase bb
  · simp only []
    exact step4Go_board (List.range 9) bb (fun _ hj => List.mem_range.mp hj) hlen
  · rfl

theorem step5_board (bb : TBoard) (hlen : bb.length = 9) : (step5 bb).2 = bb := by
  rw [step5]
  split
  · rename_i he
    simp only []
    rw [tbset_cancel bb 4 (by omega) he _]
  · rfl

theorem step6_board (bb : TBoard) : (step6 bb).2 = bb := rfl

theorem step7_board (bb : TBoard) : (step7 bb).2 = bb := rfl

theorem step8_board (bb : TBoard) : (step8 bb).2 = bb := rfl

/-- Restoration of the maximizing minimax loop: probes on cells the caller
found empty are restored and the recursive evaluator restores its board. -/
theorem tgoMax_board (ev : TBoard → EInt → EInt × TBoard) (β : EInt)
    (hev : ∀ bb a, bb.length = 9 → (ev bb a).2 = bb) :
    ∀ (l : List Nat) (bb : TBoard) (m a : EInt), (∀ j ∈ l, j < 9) →
      (∀ j ∈ l, tbget bb j = none) → bb.length = 9 →
      (tgoMax ev β l bb m a).2 = bb := by
  intro l
  induction l with
  | nil => intro bb m a _ _ _; rfl
  | cons i rest ih =>
    intro bb m a hl he hlen
    simp only [tgoMax]
    have hi9 : i < 9 := hl i (List.mem_cons_self i rest)
    have hie : tbget bb i = none := he i (List.mem_cons_self i rest)
    rw [hev (bb.set i (some TPlayer.O)) _ (by simpa using hlen)]
    rw [tbset_cancel bb i (by omega) hie _]
    split <;> split
    all_goals
      first
        | rfl
        | exact ih bb _ _ (fun j hj => hl j (List.mem_cons_of_mem i hj))
            (fun j hj => he j (List.mem_cons_of_mem i hj)) hlen

/-- Restoration of the minimizing minimax loop: probes are guarded by the
emptiness test. -/
theorem tgoMin_board (ev : TBoard → EInt → EInt × TBoard) (α : EInt)
    (hev : ∀ bb a, bb.length = 9 → (ev bb a).2 = bb) :
    ∀ (l : List Nat) (bb : TBoard) (m bβ : EInt), (∀ j ∈ l, j < 9) →
      bb.length = 9 → (tgoMin ev α l bb m bβ).2 = bb := by
  intro l
  induction l with
  | nil => intro bb m bβ _ _; rfl
  | cons i rest ih =>
    intro bb m bβ hl hlen
    simp only [tgoMin]
    have hi9 : i < 9 := hl i (List.mem_cons_self i rest)
    split
    · rename_i hie
      rw [hev (bb.set i (some TPlayer.X)) _ (by simpa using hlen)]
      rw [tbset_cancel bb i (by omega) hie _]
      split
      · rfl
      · exact ih bb _ _ (fun j hj => hl j (List.mem_cons_of_mem i hj)) hlen
    · exact ih bb _ _ (fun j hj => hl j (List.mem_cons_of_mem i hj)) hlen

theorem orderedEmpties_mem (b : TBoard) :
    ∀ j ∈ orderedEmpties b, j < 9 ∧ tbget b j = none := by
  intro j hj
  simp only [orderedEmpties, List.mem_append] at hj
  rcases hj with (hj | hj) | hj <;>
  · have := List.mem_filter.mp hj
    have h2 := List.mem_filter.mp this.1
    exact ⟨List.mem_range.mp h2.1, by simpa using h2.2⟩

/-- Claim C5, minimax part: every call restores its board. -/
theorem minimaxT_board : ∀ (fuel : Nat) (b : TBoard) (d : Nat) (isMax : Bool)
    (α β : EInt), b.length = 9 → (minimaxT fuel b d isMax α β).2 = b := by
  intro fuel
  induction fuel with
  | zero => intro b d isMax α β _; rfl
  | succ fuel ih =>
    intro b d isMax α β hlen
    rw [minimaxT]
    cases ht : ttTerminal b d
    · simp only []
      split
      · exact tgoMax_board _ β (fun bb a hl => ih bb (d + 1) false a β hl)
          (orderedEmpties b) b ⊥ α (fun j hj => (orderedEmpties_mem b j hj).1)
          (fun j hj => (orderedEmpties_mem b j hj).2) hlen
      · exact tgoMin_board _ α (fun bb a hl => ih bb (d + 1) true α a hl)
          (List.range 9) b ⊤ β (fun _ hj => List.mem_range.mp hj) hlen
    · rfl

/-- Claim C5: the decision call and the search it uses restore the caller's
board on every exit path: both return exactly the input board in their state
component. -/
theorem seqStep_board {b : TBoard} (r : Option Nat × TBoard)
    (next : TBoard → Option Nat × TBoard) (hr : r.2 = b)
    (hn : (next b).2 = b) : (seqStep r next).2 = b := by
  rcases r with ⟨o, bb⟩
  cases o
  · cases hr
    exact hn
  · exact hr

/-- Claim C5: the decision call and the search it uses restore the caller's
board on every exit path: both return exactly the input board in their state
component. -/
theorem ttt_board_unchanged (b : TBoard) (hlen : b.length = 9)
    (fuel d : Nat) (isMax : Bool) (α β : EInt) :
    (getBestMoveSt b).2 = b ∧ (minimaxT fuel b d isMax α β).2 = b := by
  refine ⟨?_, minimaxT_board fuel b d isMax α β hlen⟩
  have H2 := seqStep_board (step1 b) step2 (step1_board b hlen) (step2_board b hlen)
  have H3 := seqStep_board _ step3 H2 (step3_board b hlen)
  have H4 := seqStep_board _ step4 H3 (step4_board b hlen)
  have H5 := seqStep_board _ step5 H4 (step5_board b hlen)
  have H6 := seqStep_board _ step6 H5 (step6_board b)
  have H7 := seqStep_board _ step7 H6 (step7_board b)
  have H8 := seqStep_board _ step8 H7 (step8_board b)
  exact H8

theorem ttt_board_unchanged_witness :
    cexBoard.length = 9 ∧ (getBestMoveSt cexBoard).2 = cexBoard :=
  ⟨by decide, (ttt_board_unchanged cexBoard (by decide) 9 0 true ⊥ ⊤).1⟩

/-! Every tier returns an empty cell (claim C3) and stays silent on a full
board (claim C10). -/

theorem step1Go_some : ∀ (l : List Nat) (bb : TBoard) (i : Nat), (∀ j ∈ l, j < 9) →
    bb.length = 9 → (step1Go l bb).1 = some i → i ∈ l ∧ tbget bb i = none := by
  intro l
  induction l with
  | nil => intro bb i _ _ h; cases h
  | cons k rest ih =>
    intro bb i hl hlen
    simp only [step1Go]
    have hk9 : k < 9 := hl k (List.mem_cons_self k rest)
    split
    · rename_i hke
      rw [tbset_cancel bb k (by omega) hke _]
      split
      · intro h
        obtain rfl : k = i := by simpa using h
        exact ⟨List.mem_cons_self k rest, hke⟩
      · intro h
        obtain ⟨hm, hemp⟩ := ih bb i (fun j hj => hl j (List.mem_cons_of_mem k hj)) hlen h
        exact ⟨List.mem_cons_of_mem k hm, hemp⟩
    · intro h
      obtain ⟨hm, hemp⟩ := ih bb i (fun j hj => hl j (List.mem_cons_of_mem k hj)) hlen h
      exact ⟨List.mem_cons_of_mem k hm, hemp⟩

theorem step2Go_mem : ∀ (l : List Nat) (bb : TBoard), (∀ j ∈ l, j < 9) →
    bb.length = 9 → ∀ i ∈ (step2Go l bb).1, i ∈ l ∧ tbget bb i = none := by
  intro l
  induction l with
  | nil => intro bb _ _ i h; cases h
  | cons k rest ih =>
    intro bb hl hlen i hi
    simp only [step2Go] at hi
    have hk9 : k < 9 := hl k (List.mem_cons_self k rest)
    split at hi
    · rename_i hke
      rw [tbset_cancel bb k (by omega) hke _] at hi
      have htail : i ∈ (step2Go rest bb).1 → i ∈ k :: rest ∧ tbget bb i = none := by
        intro hm
        obtain ⟨h1, h2⟩ := ih bb (fun j hj => hl j (List.mem_cons_of_mem k hj)) hlen i hm
        exact ⟨List.mem_cons_of_mem k h1, h2⟩
      split at hi
      · rcases List.mem_cons.mp hi with rfl | hm
        · exact ⟨List.mem_cons_self i rest, hke⟩
        · exact htail hm
      · exact htail hi
    · obtain ⟨h1, h2⟩ := ih bb (fun j hj => hl j (List.mem_cons_of_mem k hj)) hlen i hi
      exact ⟨List.mem_cons_of_mem k h1, h2⟩

theorem step3Go_some : ∀ (l : List Nat) (bb : TBoard) (bm : Option Nat) (bs : Nat)
    (i : Nat), (∀ j ∈ l, j < 9) → bb.length = 9 →
    (step3Go l bb bm bs).1 = some i → bm = some i ∨ (i ∈ l ∧ tbget bb i = none) := by
  intro l
  induction l with
  | nil => intro bb bm bs i _ _ h; exact Or.inl (by simpa [step3Go] using h)
  | cons k rest ih =>
    intro bb bm bs i hl hlen
    simp only [step3Go]
    have hk9 : k < 9 := hl k (List.mem_cons_self k rest)
    split
    · rename_i hke
      rw [tbset_cancel bb k (by omega) hke _]
      intro h
      rcases ih bb _ _ i (fun j hj => hl j (List.mem_cons_of_mem k hj)) hlen h with hbm | ⟨h1, h2⟩
      · split at hbm
        · obtain rfl : k = i := by simpa using hbm
          exact Or.inr ⟨List.mem_cons_self k rest, hke⟩
        · exact Or.inl hbm
      · exact Or.inr ⟨List.mem_cons_of_mem k h1, h2⟩
    · intro h
      rcases ih bb _ _ i (fun j hj => hl j (List.mem_cons_of_mem k hj)) hlen h with hbm | ⟨h1, h2⟩
      · exact Or.inl hbm
      · exact Or.inr ⟨List.mem_cons_of_mem k h1, h2⟩

theorem oppositeCornerCase_some (bb : TBoard) (i : Nat)
    (h : oppositeCornerCase bb = some i) : i < 9 ∧ tbget bb i = none := by
  rw [oppositeCornerCase] at h
  split at h
  · split at h
    · cases hq : ([1, 3, 5, 7].filter (fun p => tbget bb p = none)) with
      | nil => rw [hq] at h; cases h
      | cons x xs =>
        rw [hq] at h
        have hx : x ∈ [1, 3, 5, 7].filter (fun p => tbget bb p = none) := by
          rw [hq]; exact List.mem_cons_self x xs
        obtain ⟨hm, he⟩ := List.mem_filter.mp hx
        have hxi : x = i := by simpa using h
        rw [hxi] at hm he
        have h19 : i = 1 ∨ i = 3 ∨ i = 5 ∨ i = 7 := by simpa using hm
        exact ⟨by omega, by simpa using he⟩
    · cases h
  · cases h

theorem step4Go_mem : ∀ (l : List Nat) (bb : TBoard), (∀ j ∈ l, j < 9) →
    bb.length = 9 →
    (∀ i ∈ (step4Go l bb).1.1, i ∈ l ∧ tbget bb i = none) ∧
    (∀ i ∈ (step4Go l bb).1.2, i ∈ l ∧ tbget bb i = none) := by
  intro l
  induction l with
  | nil =>
    intro bb _ _
    refine ⟨fun i h => ?_, fun i h => ?_⟩ <;> simp [step4Go] at h
  | cons k rest ih =>
    intro bb hl hlen
    simp only [step4Go]
    have hk9 : k < 9 := hl k (List.mem_cons_self k rest)
    split
    · rename_i hke
      rw [maxThreatsGo_board (List.range 9) _ 0 (fun _ hj => List.mem_range.mp hj)
        (by simpa using hlen), tbset_cancel bb k (by omega) hke _]
      obtain ⟨ihs, ihd⟩ := ih bb (fun j hj => hl j (List.mem_cons_of_mem k hj)) hlen
      have tails : ∀ i ∈ (step4Go rest bb).1.1, i ∈ k :: rest ∧ tbget bb i = none :=
        fun i hm => ⟨List.mem_cons_of_mem k (ihs i hm).1, (ihs i hm).2⟩
      have taild : ∀ i ∈ (step4Go rest bb).1.2, i ∈ k :: rest ∧ tbget bb i = none :=
        fun i hm => ⟨List.mem_cons_of_mem k (ihd i hm).1, (ihd i hm).2⟩
      split
      · refine ⟨tails, fun i hi => ?_⟩
        rcases List.mem_cons.mp hi with rfl | hm
        · exact ⟨List.mem_cons_self i rest, hke⟩
        · exact taild i hm
      · refine ⟨fun i hi => ?_, taild⟩
        rcases List.mem_cons.mp hi with rfl | hm
        · exact ⟨List.mem_cons_self i rest, hke⟩
        · exact tails i hm
    · obtain ⟨ihs, ihd⟩ := ih bb (fun j hj => hl j (List.mem_cons_of_mem k hj)) hlen
      exact ⟨fun i hm => ⟨List.mem_cons_of_mem k (ihs i hm).1, (ihs i hm).2⟩,
        fun i hm => ⟨List.mem_cons_of_mem k (ihd i hm).1, (ihd i hm).2⟩⟩

theorem preferredSafe_mem (safe : List Nat) (h : safe ≠ []) :
    preferredSafe safe ∈ safe := by
  have hd : safe.headD 0 ∈ safe := by
    cases safe with
    | nil => exact absurd rfl h
    | cons x xs => exact List.mem_cons_self x xs
  have hfb : (match safe.find? (fun p => p = 4) with
      | some w => w
      | none => safe.headD 0) ∈ safe := by
    cases h4 : safe.find? (fun p => p = 4) with
    | none => exact hd
    | some w => exact List.mem_of_find?_eq_some h4
  simp only [preferredSafe]
  cases hc : safe.find? (fun p => p = 0 ∨ p = 2 ∨ p = 6 ∨ p = 8) with
  | none => exact hfb
  | some v =>
    show (if v ≠ 0 then v
        else match safe.find? (fun p => p = 4) with
          | some w => w
          | none => safe.headD 0) ∈ safe
    by_cases hv : v ≠ 0
    · rw [if_pos hv]
      exact List.mem_of_find?_eq_some hc
    · rw [if_neg hv]
      exact hfb

theorem step1_some (bb : TBoard) (i : Nat) (hlen : bb.length = 9)
    (h : (step1 bb).1 = some i) : i < 9 ∧ tbget bb i = none := by
  obtain ⟨hm, he⟩ := step1Go_some (List.range 9) bb i
    (fun _ hj => List.mem_range.mp hj) hlen h
  exact ⟨List.mem_range.mp hm, he⟩

theorem step2_some (bb : TBoard) (i : Nat) (hlen : bb.length = 9)
    (h : (step2 bb).1 = some i) : i < 9 ∧ tbget bb i = none := by
  have h2 : (step2Go (List.range 9) bb).1.head? = some i := h
  have hmem : i ∈ (step2Go (List.range 9) bb).1 :=
    List.mem_of_mem_head? (Option.mem_def.mpr h2)
  obtain ⟨hm, he⟩ := step2Go_mem (List.range 9) bb
    (fun _ hj => List.mem_range.mp hj) hlen i hmem
  exact ⟨List.mem_range.mp hm, he⟩

theorem step3_some (bb : TBoard) (i : Nat) (hlen : bb.length = 9)
    (h : (step3 bb).1 = some i) : i < 9 ∧ tbget bb i = none := by
  rcases step3Go_some (List.range 9) bb none 0 i
    (fun _ hj => List.mem_range.mp hj) hlen h with hbm | ⟨h1, h2⟩
  · cases hbm
  · exact ⟨List.mem_range.mp h1, h2⟩

theorem step4_some (bb : TBoard) (i : Nat) (hlen : bb.length = 9)
    (h : (step4 bb).1 = some i) : i < 9 ∧ tbget bb i = none := by
  rw [step4] at h
  split at h
  · rename_i s hs
    obtain rfl : s = i := by simpa using h
    exact oppositeCornerCase_some bb s hs
  · simp only [] at h
    split at h
    · rename_i hcond
      obtain rfl : preferredSafe (step4Go (List.range 9) bb).1.1 = i := by simpa using h
      have hne : (step4Go (List.range 9) bb).1.1 ≠ [] := by
        intro hnil
        rw [hnil] at hcond
        simp at hcond
      obtain ⟨hm, he⟩ := (step4Go_mem (List.range 9) bb
        (fun _ hj => List.mem_range.mp hj) hlen).1 _ (preferredSafe_mem _ hne)
      exact ⟨List.mem_range.mp hm, he⟩
    · cases h

theorem step5_some (bb : TBoard) (i : Nat)
    (h : (step5 bb).1 = some i) : i < 9 ∧ tbget bb i = none := by
  rw [step5] at h
  split at h
  · rename_i he
    obtain rfl : (4 : Nat) = i := by simpa using h
    exact ⟨by omega, he⟩
  · cases h

theorem upd6_some (bb : TBoard) (st : Option Nat × Nat) (c1 c2 i : Nat)
    (h : (upd6 bb st c1 c2).1 = some i) :
    st.1 = some i ∨ (i = c2 ∧ tbget bb c2 = none) := by
  rw [upd6] at h
  split at h
  · rename_i hcond
    have h2 : (if st.2 < cornerValue bb c2 then
        ((some c2, cornerValue bb c2) : Option Nat × Nat) else st).1 = some i := h
    split at h2
    · exact Or.inr ⟨by simpa using h2.symm, hcond.2⟩
    · exact Or.inl h2
  · exact Or.inl h

theorem step6_some (bb : TBoard) (i : Nat)
    (h : (step6 bb).1 = some i) : i < 9 ∧ tbget bb i = none := by
  rw [step6] at h
  simp only [] at h
  rcases upd6_some bb _ 6 2 i h with h | ⟨rfl, he⟩
  · rcases upd6_some bb _ 2 6 i h with h | ⟨rfl, he⟩
    · rcases upd6_some bb _ 8 0 i h with h | ⟨rfl, he⟩
      · rcases upd6_some bb _ 0 8 i h with h | ⟨rfl, he⟩
        · cases h
        · exact ⟨by omega, he⟩
      · exact ⟨by omega, he⟩
    · exact ⟨by omega, he⟩
  · exact ⟨by omega, he⟩

theorem pick_some (bb : TBoard) (score : TBoard → Nat → Nat)
    (st : Option Nat × Nat) (c i : Nat)
    (h : (pick bb score st c).1 = some i) :
    st.1 = some i ∨ (i = c ∧ tbget bb c = none) := by
  rw [pick] at h
  split at h
  · rename_i hce
    have h2 : (if st.2 < score bb c then
        ((some c, score bb c) : Option Nat × Nat) else st).1 = some i := h
    split at h2
    · exact Or.inr ⟨by simpa using h2.symm, hce⟩
    · exact Or.inl h2
  · exact Or.inl h

theorem foldl_pick_some (bb : TBoard) (score : TBoard → Nat → Nat) :
    ∀ (l : List Nat) (st : Option Nat × Nat) (i : Nat),
      ((l.foldl (pick bb score) st).1 = some i) →
      st.1 = some i ∨ (i ∈ l ∧ tbget bb i = none) := by
  intro l
  induction l with
  | nil => exact fun st i h => Or.inl h
  | cons k rest ih =>
    intro st i h
    rw [List.foldl_cons] at h
    rcases ih (pick bb score st k) i h with hp | ⟨h1, h2⟩
    · rcases pick_some bb score st k i hp with hs | ⟨rfl, he⟩
      · exact Or.inl hs
      · exact Or.inr ⟨List.mem_cons_self i rest, he⟩
    · exact Or.inr ⟨List.mem_cons_of_mem k h1, h2⟩

theorem step7_some (bb : TBoard) (i : Nat)
    (h : (step7 bb).1 = some i) : i < 9 ∧ tbget bb i = none := by
  rw [step7] at h
  rcases foldl_pick_some bb cornerScore [0, 2, 6, 8] (none, 0) i h with hn | ⟨h1, h2⟩
  · cases hn
  · have h9 : i = 0 ∨ i = 2 ∨ i = 6 ∨ i = 8 := by simpa using h1
    exact ⟨by omega, h2⟩

theorem step8_some (bb : TBoard) (i : Nat)
    (h : (step8 bb).1 = some i) : i < 9 ∧ tbget bb i = none := by
  rw [step8] at h
  rcases foldl_pick_some bb sideScore [1, 3, 5, 7] (none, 0) i h with hn | ⟨h1, h2⟩
  · cases hn
  · have h9 : i = 1 ∨ i = 3 ∨ i = 5 ∨ i = 7 := by simpa using h1
    exact ⟨by omega, h2⟩

/-! Fire lemmas: a tier cannot stay silent while its cells have an empty
candidate, so on a non-full board one of tiers 5/7/8 always answers. -/

theorem pick_eq (bb : TBoard) (score : TBoard → Nat → Nat)
    (st : Option Nat × Nat) (c : Nat) :
    pick bb score st c =
      (if tbget bb c = none then
        (if st.2 < score bb c then (some c, score bb c) else st)
      else st) := rfl

theorem pick_none_eq (bb : TBoard) (score : TBoard → Nat → Nat)
    (st : Option Nat × Nat) (c : Nat) (h : (pick bb score st c).1 = none) :
    pick bb score st c = st := by
  rw [pick_eq] at h ⊢
  split at h
  · rename_i h1
    rw [if_pos h1]
    split at h
    · simp at h
    · rename_i h2
      rw [if_neg h2]
  · rename_i h1
    rw [if_neg h1]

theorem foldl_pick_fire (bb : TBoard) (score : TBoard → Nat → Nat)
    (hsc : ∀ c, 1 ≤ score bb c) :
    ∀ (l : List Nat) (st : Option Nat × Nat), (st.1 = none → st.2 = 0) →
      (st.1 ≠ none ∨ ∃ c ∈ l, tbget bb c = none) →
      (l.foldl (pick bb score) st).1 ≠ none := by
  intro l
  induction l with
  | nil =>
    intro st _ hd
    rcases hd with h | ⟨c, hc, _⟩
    · exact h
    · cases hc
  | cons k rest ih =>
    intro st hinv hd
    rw [List.foldl_cons]
    have hinv' : (pick bb score st k).1 = none → (pick bb score st k).2 = 0 := by
      intro hn
      have hp := pick_none_eq bb score st k hn
      rw [hp] at hn ⊢
      exact hinv hn
    rcases hd with hs | ⟨c, hcm, hce⟩
    · refine ih (pick bb score st k) hinv' (Or.inl ?_)
      intro hn
      have hp := pick_none_eq bb score st k hn
      rw [hp] at hn
      exact hs hn
    · rcases List.mem_cons.mp hcm with rfl | hcr
      · refine ih (pick bb score st c) hinv' (Or.inl ?_)
        intro hn
        have hp := pick_none_eq bb score st c hn
        have hst1 : st.1 = none := by rw [hp] at hn; exact hn
        have hst2 : st.2 = 0 := hinv hst1
        rw [pick_eq, if_pos hce, if_pos (by rw [hst2]; exact hsc c)] at hn
        simp at hn
      · exact ih (pick bb score st k) hinv' (Or.inr ⟨c, hcr, hce⟩)

theorem step5_none (bb : TBoard) (h : (step5 bb).1 = none) :
    ¬ tbget bb 4 = none := by
  intro hce
  rw [step5, if_pos hce] at h
  simp at h

theorem step7_none (bb : TBoard) (h : (step7 bb).1 = none) :
    ∀ c ∈ [0, 2, 6, 8], tbget bb c ≠ none := by
  intro c hc hce
  exact foldl_pick_fire bb cornerScore (fun x => by simp only [cornerScore]; omega)
    [0, 2, 6, 8] (none, 0) (fun _ => rfl) (Or.inr ⟨c, hc, hce⟩) h

theorem step8_none (bb : TBoard) (h : (step8 bb).1 = none) :
    ∀ c ∈ [1, 3, 5, 7], tbget bb c ≠ none := by
  intro c hc hce
  exact foldl_pick_fire bb sideScore (fun x => by simp only [sideScore]; omega)
    [1, 3, 5, 7] (none, 0) (fun _ => rfl) (Or.inr ⟨c, hc, hce⟩) h

theorem seqStep_some {b : TBoard} (r : Option Nat × TBoard)
    (next : TBoard → Option Nat × TBoard) (hr : r.2 = b) (i : Nat)
    (h : (seqStep r next).1 = some i) :
    r.1 = some i ∨ (r.1 = none ∧ (next b).1 = some i) := by
  rcases r with ⟨o, bb⟩
  cases o with
  | some v => exact Or.inl (by simpa [seqStep] using h)
  | none =>
    have hb : bb = b := hr
    subst hb
    exact Or.inr ⟨rfl, by simpa [seqStep] using h⟩

theorem seqStep_none {b : TBoard} (r : Option Nat × TBoard)
    (next : TBoard → Option Nat × TBoard) (hr : r.2 = b)
    (h : (seqStep r next).1 = none) : r.1 = none ∧ (next b).1 = none := by
  rcases r with ⟨o, bb⟩
  cases o with
  | some v => simp [seqStep] at h
  | none =>
    have hb : bb = b := hr
    subst hb
    exact ⟨rfl, by simpa [seqStep] using h⟩

/-- Tic-tac-toe half of claim C3: on a board with an empty cell some tier
fires, and every tier returns an empty cell. -/
theorem getBestMove_empty (b : TBoard) (hlen : b.length = 9)
    (j : Nat) (hj : j < 9) (hje : tbget b j = none) :
    tbget b (getBestMove b) = none := by
  have h1b := step1_board b hlen
  have h2b := step2_board b hlen
  have h3b := step3_board b hlen
  have h4b := step4_board b hlen
  have h5b := step5_board b hlen
  have h6b := step6_board b
  have h7b := step7_board b
  have h8b := step8_board b
  have hs2 := seqStep_board (step1 b) step2 h1b h2b
  have hs3 := seqStep_board _ step3 hs2 h3b
  have hs4 := seqStep_board _ step4 hs3 h4b
  have hs5 := seqStep_board _ step5 hs4 h5b
  have hs6 := seqStep_board _ step6 hs5 h6b
  have hs7 := seqStep_board _ step7 hs6 h7b
  have hbm : getBestMove b = (seqStep (seqStep (seqStep (seqStep (seqStep (seqStep
      (seqStep (step1 b) step2) step3) step4) step5) step6) step7) step8).1.getD 0 := rfl
  cases hfin : (seqStep (seqStep (seqStep (seqStep (seqStep (seqStep
      (seqStep (step1 b) step2) step3) step4) step5) step6) step7) step8).1 with
  | some i =>
    have hi : getBestMove b = i := by rw [hbm, hfin]; rfl
    rw [hi]
    rcases seqStep_some _ step8 hs7 i hfin with h | ⟨_, h8⟩
    · rcases seqStep_some _ step7 hs6 i h with h | ⟨_, h7⟩
      · rcases seqStep_some _ step6 hs5 i h with h | ⟨_, h6⟩
        · rcases seqStep_some _ step5 hs4 i h with h | ⟨_, h5⟩
          · rcases seqStep_some _ step4 hs3 i h with h | ⟨_, h4⟩
            · rcases seqStep_some _ step3 hs2 i h with h | ⟨_, h3⟩
              · rcases seqStep_some _ step2 h1b i h with h | ⟨_, h2⟩
                · exact (step1_some b i hlen h).2
                · exact (step2_some b i hlen h2).2
              · exact (step3_some b i hlen h3).2
            · exact (step4_some b i hlen h4).2
          · exact (step5_some b i h5).2
        · exact (step6_some b i h6).2
      · exact (step7_some b i h7).2
    · exact (step8_some b i h8).2
  | none =>
    exfalso
    obtain ⟨h17, h8n⟩ := seqStep_none _ step8 hs7 hfin
    obtain ⟨h16, h7n⟩ := seqStep_none _ step7 hs6 h17
    obtain ⟨h15, h6n⟩ := seqStep_none _ step6 hs5 h16
    obtain ⟨h14, h5n⟩ := seqStep_none _ step5 hs4 h15
    have hc4 := step5_none b h5n
    have hcor := step7_none b h7n
    have hsid := step8_none b h8n
    have hj9 : j = 0 ∨ j = 1 ∨ j = 2 ∨ j = 3 ∨ j = 4 ∨ j = 5 ∨ j = 6 ∨ j = 7 ∨ j = 8 := by
      omega
    rcases hj9 with rfl | rfl | rfl | rfl | rfl | rfl | rfl | rfl | rfl
    · exact hcor 0 (by decide) hje
    · exact hsid 1 (by decide) hje
    · exact hcor 2 (by decide) hje
    · exact hsid 3 (by decide) hje
    · exact hc4 hje
    · exact hsid 5 (by decide) hje
    · exact hcor 6 (by decide) hje
    · exact hsid 7 (by decide) hje
    · exact hcor 8 (by decide) hje

/-! Full-board behaviour (claim C10): on a board with no empty cell no tier
fires, and the cascade falls through to the literal `return 0`. -/

theorem step1Go_full (bb : TBoard) :
    ∀ l : List Nat, (∀ j ∈ l, tbget bb j ≠ none) → step1Go l bb = (none, bb) := by
  intro l
  induction l with
  | nil => intro _; rfl
  | cons k rest ih =>
    intro hfull
    simp only [step1Go]
    rw [if_neg (hfull k (List.mem_cons_self k rest))]
    exact ih (fun j hj => hfull j (List.mem_cons_of_mem k hj))

theorem step2Go_full (bb : TBoard) :
    ∀ l : List Nat, (∀ j ∈ l, tbget bb j ≠ none) → step2Go l bb = ([], bb) := by
  intro l
  induction l with
  | nil => intro _; rfl
  | cons k rest ih =>
    intro hfull
    simp only [step2Go]
    rw [if_neg (hfull k (List.mem_cons_self k rest))]
    exact ih (fun j hj => hfull j (List.mem_cons_of_mem k hj))

theorem step3Go_full (bb : TBoard) :
    ∀ (l : List Nat) (bm : Option Nat) (bs : Nat),
      (∀ j ∈ l, tbget bb j ≠ none) → step3Go l bb bm bs = (bm, bb) := by
  intro l
  induction l with
  | nil => intro bm bs _; rfl
  | cons k rest ih =>
    intro bm bs hfull
    simp only [step3Go]
    rw [if_neg (hfull k (List.mem_cons_self k rest))]
    exact ih bm bs (fun j hj => hfull j (List.mem_cons_of_mem k hj))

theorem step4Go_full (bb : TBoard) :
    ∀ l : List Nat, (∀ j ∈ l, tbget bb j ≠ none) → step4Go l bb = (([], []), bb) := by
  intro l
  induction l with
  | nil => intro _; rfl
  | cons k rest ih =>
    intro hfull
    simp only [step4Go]
    rw [if_neg (hfull k (List.mem_cons_self k rest))]
    exact ih (fun j hj => hfull j (List.mem_cons_of_mem k hj))

theorem oppositeCornerCase_full (bb : TBoard)
    (hfull : ∀ i, i < 9 → tbget bb i ≠ none) : oppositeCornerCase bb = none := by
  cases hpc : playerCorners bb with
  | nil => rw [oppositeCornerCase, hpc]
  | cons c1 cs =>
    cases cs with
    | nil => rw [oppositeCornerCase, hpc]
    | cons c2 cs2 =>
      cases cs2 with
      | cons c3 cs3 => rw [oppositeCornerCase, hpc]
      | nil =>
        rw [oppositeCornerCase, hpc]
        have hemp : ([1, 3, 5, 7].filter (fun p => tbget bb p = none)) = [] := by
          rw [List.filter_eq_nil_iff]
          intro a ha
          have h9 : a = 1 ∨ a = 3 ∨ a = 5 ∨ a = 7 := by simpa using ha
          rcases h9 with rfl | rfl | rfl | rfl <;> simpa using hfull _ (by omega)
        show (if (c1 = 0 ∧ c2 = 8) ∨ (c1 = 8 ∧ c2 = 0) ∨ (c1 = 2 ∧ c2 = 6) ∨
            (c1 = 6 ∧ c2 = 2) then
            (([1, 3, 5, 7].filter (fun p => tbget bb p = none)).head?) else none) = none
        rw [hemp]
        split
        · rfl
        · rfl

theorem step1_full (bb : TBoard) (hfull : ∀ i, i < 9 → tbget bb i ≠ none) :
    step1 bb = (none, bb) :=
  step1Go_full bb (List.range 9) (fun j hj => hfull j (List.mem_range.mp hj))

theorem step2_full (bb : TBoard) (hfull : ∀ i, i < 9 → tbget bb i ≠ none) :
    step2 bb = (none, bb) := by
  have h := step2Go_full bb (List.range 9) (fun j hj => hfull j (List.mem_range.mp hj))
  simp only [step2]
  rw [h]
  rfl

theorem step3_full (bb : TBoard) (hfull : ∀ i, i < 9 → tbget bb i ≠ none) :
    step3 bb = (none, bb) :=
  step3Go_full bb (List.range 9) none 0 (fun j hj => hfull j (List.mem_range.mp hj))

theorem step4_full (bb : TBoard) (hfull : ∀ i, i < 9 → tbget bb i ≠ none) :
    step4 bb = (none, bb) := by
  have hocc := oppositeCornerCase_full bb hfull
  have hgo := step4Go_full bb (List.range 9) (fun j hj => hfull j (List.mem_range.mp hj))
  rw [step4, hocc]
  simp only [hgo]
  simp

theorem step5_full (bb : TBoard) (hfull : ∀ i, i < 9 → tbget bb i ≠ none) :
    step5 bb = (none, bb) := by
  rw [step5, if_neg (hfull 4 (by omega))]

theorem upd6_skip (bb : TBoard) (st : Option Nat × Nat) (c1 c2 : Nat)
    (h : tbget bb c2 ≠ none) : upd6 bb st c1 c2 = st := by
  rw [upd6, if_neg]
  intro hc
  exact h hc.2

theorem step6_full (bb : TBoard) (hfull : ∀ i, i < 9 → tbget bb i ≠ none) :
    step6 bb = (none, bb) := by
  simp only [step6]
  rw [upd6_skip bb (none, 0) 0 8 (hfull 8 (by omega))]
  rw [upd6_skip bb (none, 0) 8 0 (hfull 0 (by omega))]
  rw [upd6_skip bb (none, 0) 2 6 (hfull 6 (by omega))]
  rw [upd6_skip bb (none, 0) 6 2 (hfull 2 (by omega))]

theorem foldl_pick_full (bb : TBoard) (score : TBoard → Nat → Nat) :
    ∀ (l : List Nat) (st : Option Nat × Nat), (∀ c ∈ l, tbget bb c ≠ none) →
      l.foldl (pick bb score) st = st := by
  intro l
  induction l with
  | nil => intro st _; rfl
  | cons k rest ih =>
    intro st hfull
    rw [List.foldl_cons, pick_eq, if_neg (hfull k (List.mem_cons_self k rest))]
    exact ih st (fun c hc => hfull c (List.mem_cons_of_mem k hc))

theorem step7_full (bb : TBoard) (hfull : ∀ i, i < 9 → tbget bb i ≠ none) :
    step7 bb = (none, bb) := by
  rw [step7, foldl_pick_full bb cornerScore [0, 2, 6, 8] (none, 0)]
  intro c hc
  have h9 : c = 0 ∨ c = 2 ∨ c = 6 ∨ c = 8 := by simpa using hc
  rcases h9 with rfl | rfl | rfl | rfl <;> exact hfull _ (by omega)

theorem step8_full (bb : TBoard) (hfull : ∀ i, i < 9 → tbget bb i ≠ none) :
    step8 bb = (none, bb) := by
  rw [step8, foldl_pick_full bb sideScore [1, 3, 5, 7] (none, 0)]
  intro c hc
  have h9 : c = 1 ∨ c = 3 ∨ c = 5 ∨ c = 7 := by simpa using hc
  rcases h9 with rfl | rfl | rfl | rfl <;> exact hfull _ (by omega)

/-- Tic-tac-toe board with one `X` and eight empty cells, to exercise the
cascade on a non-full board. -/
def c3Board : TBoard :=
  [some TPlayer.X, none, none, none, none, none, none, none, none]

/-- A completely full tic-tac-toe board with `X` in cell 0. -/
def fullBoard : TBoard :=
  [some TPlayer.X, some TPlayer.O, some TPlayer.X,
   some TPlayer.X, some TPlayer.O, some TPlayer.X,
   some TPlayer.O, some TPlayer.X, some TPlayer.O]

/-- C3: the engine's best-move computation returns a legal move. In
tic-tac-toe, on any 9-cell board with at least one empty cell `getBestMove`
returns the index of an empty cell; in checkers, whenever `aiMove`'s scan
settles on a move it is one of the side-to-move's enumerated legal moves. -/
theorem bestMove_legal (b9 : TBoard) (hlen : b9.length = 9)
    (j : Nat) (hj : j < 9) (hje : tbget b9 j = none)
    (b : Makhos.Board) (mv : Nat × Nat) (hsel : Makhos.aiSelect b = some mv) :
    tbget b9 (getBestMove b9) = none ∧ mv ∈ Makhos.legalMoves b true :=
  ⟨getBestMove_empty b9 hlen j hj hje, Makhos.aiSelect_mem_legalMoves b mv hsel⟩

theorem bestMove_legal_witness :
    c3Board.length = 9 ∧ (1 : Nat) < 9 ∧ tbget c3Board 1 = none ∧
      Makhos.aiSelect Makhos.kingBoard = some (28, 46) ∧
      (tbget c3Board (getBestMove c3Board) = none ∧
        (28, 46) ∈ Makhos.legalMoves Makhos.kingBoard true) :=
  ⟨by decide, by decide, by decide, by decide,
    bestMove_legal c3Board (by decide) 1 (by decide) (by decide)
      Makhos.kingBoard (28, 46) (by decide)⟩

/-- C10: called on a completely full board (no empty cell), no cascade tier
fires and `getBestMove` falls through to `return 0`, regardless of cell 0
being occupied. -/
theorem getBestMove_on_full (b : TBoard) (hlen : b.length = 9)
    (hfull : ∀ i, i < 9 → tbget b i ≠ none) : getBestMove b = 0 := by
  have h1 := step1_full b hfull
  have h2 := step2_full b hfull
  have h3 := step3_full b hfull
  have h4 := step4_full b hfull
  have h5 := step5_full b hfull
  have h6 := step6_full b hfull
  have h7 := step7_full b hfull
  have h8 := step8_full b hfull
  simp [getBestMove, getBestMoveSt, seqStep, h1, h2, h3, h4, h5, h6, h7, h8]

theorem getBestMove_on_full_witness :
    fullBoard.length = 9 ∧ (∀ i, i < 9 → tbget fullBoard i ≠ none) ∧
      getBestMove fullBoard = 0 :=
  ⟨by decide, by decide, getBestMove_on_full fullBoard (by decide) (by decide)⟩

end TicTac
